import Mathlib

/-!
Verification development for the git-spotlight blame analysis engine.

This file gives a shallow embedding of the core data-transformation logic of
the repository (blame parsing, the blame result cache, heatmap calculation,
highlight classification and highlight navigation) and proves or refutes the
frozen specification claims about it.

Modelling conventions:
- JavaScript strings are modelled as lists of characters (`JSStr`); JS
  `substring` / `startsWith` / `toLowerCase` / `includes` / `split` become the
  corresponding list operations (lowercasing is modelled on the ASCII range).
- JavaScript `Map` objects are modelled as insertion-ordered association
  lists (`JSMap`); `Map.set` overwrites in place (keeping the original
  position, as JS does) or appends a fresh key at the end.
- JavaScript numbers are modelled exactly: integer-valued quantities as
  `Nat`/`Int`, quantities produced by division as `Rat`.  The one observable
  NaN source in the core (a `parseInt` call on a non-numeric `author-time`
  field) is modelled with `Option`: `none` plays the role of NaN and is
  propagated exactly as IEEE NaN is (every ordered comparison with NaN is
  false, arithmetic on NaN gives NaN).
- The editor-facing side effects (setting decorations, moving the cursor) are
  stripped; each decorator operation is modelled by the pure computation of
  the line numbers / state it produces, which is what the claims are about.
-/

/-- A JavaScript string, modelled as its list of characters. -/
abbrev JSStr := List Char

/-- The character class of the JS regexp `\s` (whitespace), as used by
`String.prototype.trim`, `\s+` in the blame header pattern, and `parseInt`'s
leading-whitespace skip.  Covers the ASCII whitespace characters plus the
common Unicode space characters JS includes. -/
def isJsWs (c : Char) : Bool :=
  c = ' ' || c = '\t' || c = '\n' || c = '\r' ||
  c.toNat = 11 || c.toNat = 12 || c.toNat = 0xa0 || c.toNat = 0xfeff ||
  c.toNat = 0x1680 || (0x2000 ≤ c.toNat && c.toNat ≤ 0x200a) ||
  c.toNat = 0x2028 || c.toNat = 0x2029 || c.toNat = 0x202f ||
  c.toNat = 0x205f || c.toNat = 0x3000

/-- JS `!s || !s.trim()`: the string is empty or consists of whitespace only. -/
def isBlankStr (s : JSStr) : Bool := s.all isJsWs

/-- ASCII lowercasing of one character (model of JS `toLowerCase` on the
inputs the claims are about). -/
def asciiLower (c : Char) : Char :=
  if 65 ≤ c.toNat && c.toNat ≤ 90 then Char.ofNat (c.toNat + 32) else c

/-- Model of JS `String.prototype.toLowerCase` (ASCII range). -/
def asciiLowerStr (s : JSStr) : JSStr := s.map asciiLower

/-- Model of JS `String.prototype.includes`: `needle` occurs as a contiguous
substring of `hay`. -/
def containsSub (hay needle : JSStr) : Bool :=
  if needle.isPrefixOf hay then true
  else
    match hay with
    | [] => false
    | _ :: t => containsSub t needle

/-- Numeric value of a non-empty list of decimal digit characters. -/
def digitsToNat (ds : List Char) : Nat :=
  ds.foldl (fun a c => a * 10 + (c.toNat - 48)) 0

/-- Model of JS `parseInt(s, 10)`: skip leading whitespace, optional sign,
then the longest run of decimal digits; `none` models the NaN result when no
digit is found.  (Digit strings beyond 2^53 are modelled exactly rather than
with float rounding; no claim depends on such inputs.) -/
def parseJsInt (s : JSStr) : Option Int :=
  let t := s.dropWhile isJsWs
  match t with
  | '-' :: rest =>
      let ds := rest.takeWhile Char.isDigit
      if ds.isEmpty then none else some (-(digitsToNat ds : Int))
  | '+' :: rest =>
      let ds := rest.takeWhile Char.isDigit
      if ds.isEmpty then none else some ((digitsToNat ds : Int))
  | rest =>
      let ds := rest.takeWhile Char.isDigit
      if ds.isEmpty then none else some ((digitsToNat ds : Int))

/-- Model of JS `String.prototype.split` with separator `"\n"`.
`""` splits to `[""]`, `"a\n"` to `["a", ""]`, as in JS. -/
def splitOnNl : JSStr → List JSStr
  | [] => [[]]
  | c :: cs =>
    if c = '\n' then [] :: splitOnNl cs
    else
      match splitOnNl cs with
      | [] => [[c]]
      | l :: ls => (c :: l) :: ls

/-- Does the string start with a tab character (JS `line.startsWith('\t')`)? -/
def startsTab : JSStr → Bool
  | [] => false
  | c :: _ => c = '\t'

/-- A JavaScript `Map`, modelled as an insertion-ordered association list.
`mapSet` maintains the JS invariant that each key occurs at most once. -/
abbrev JSMap (K V : Type) := List (K × V)

/-- JS `Map.prototype.has`. -/
def mapHas {K V : Type} [DecidableEq K] (m : JSMap K V) (k : K) : Bool :=
  m.any (fun kv => kv.1 = k)

/-- JS `Map.prototype.get` (`none` models `undefined`). -/
def mapGet {K V : Type} [DecidableEq K] (m : JSMap K V) (k : K) : Option V :=
  (m.find? (fun kv => kv.1 = k)).map Prod.snd

/-- JS `Map.prototype.set`: overwrite in place if the key is present
(keeping its position in iteration order), otherwise append at the end. -/
def mapSet {K V : Type} [DecidableEq K] (m : JSMap K V) (k : K) (v : V) : JSMap K V :=
  if mapHas m k then m.map (fun kv => if kv.1 = k then (k, v) else kv)
  else m ++ [(k, v)]

/-- JS `Map.prototype.delete` (on maps with unique keys, removing the entry
for `k` is removing every entry whose key is `k`). -/
def mapDelete {K V : Type} [DecidableEq K] (m : JSMap K V) (k : K) : JSMap K V :=
  m.filter (fun kv => !(kv.1 = k : Bool))

/-- Blame information for a single line (source: `BlameLineInfo` in
`src/blame/blameParser.ts`).  `authorTime` is `Option Int`: `some t` is an
ordinary numeric timestamp (seconds), `none` models the NaN that
`parseInt` produces on a malformed `author-time` field. -/
structure BlameLineInfo where
  lineNumber : Nat
  commitSha : JSStr
  author : JSStr
  authorMail : JSStr
  authorTime : Option Int
  authorTz : JSStr
  summary : JSStr
  isUncommitted : Bool
  filename : JSStr
deriving DecidableEq, Repr

/-- Result of parsing blame output (source: `BlameParseResult`). -/
structure BlameParseResult where
  success : Bool
  lines : JSMap Nat BlameLineInfo
  error : Option JSStr
  lineCount : Nat
deriving DecidableEq, Repr

/-- The all-zero commit id marking uncommitted lines (source constant
`UNCOMMITTED_SHA_PREFIX`; renamed here). -/
def uncommittedShaSentinel : JSStr := (String.toList "0000000000000000000000000000000000000000")

/-- Model of the header regexp
`^([0-9a-f]{40})\s+(\d+)\s+(\d+)(?:\s+(\d+))?$`: forty lowercase hex
characters, whitespace, the original line number, whitespace, the final line
number, optionally whitespace and a repeat count, end of line.  Returns the
sha (capture 1) and the numeric value of the final line number (the
`parseInt(headerMatch[3], 10)` the source performs).  The character classes
`\s` and `\d` are disjoint, so the greedy left-to-right scan below decides
the regexp without backtracking. -/
def matchHeader (l : JSStr) : Option (JSStr × Nat) :=
  let sha := l.take 40
  let r0 := l.drop 40
  if sha.length = 40 && sha.all (fun c => c.isDigit || ('a' ≤ c && c ≤ 'f')) then
    if (r0.takeWhile isJsWs).isEmpty then none else
    let r1 := r0.dropWhile isJsWs
    if (r1.takeWhile Char.isDigit).isEmpty then none else
    let r2 := r1.dropWhile Char.isDigit
    if (r2.takeWhile isJsWs).isEmpty then none else
    let r3 := r2.dropWhile isJsWs
    let d2 := r3.takeWhile Char.isDigit
    if d2.isEmpty then none else
    let r4 := r3.dropWhile Char.isDigit
    if r4.isEmpty then some (sha, digitsToNat d2) else
    if (r4.takeWhile isJsWs).isEmpty then none else
    let r5 := r4.dropWhile isJsWs
    if (r5.takeWhile Char.isDigit).isEmpty then none else
    let r6 := r5.dropWhile Char.isDigit
    if r6.isEmpty then some (sha, digitsToNat d2) else none
  else none

/-- The fresh per-line record built right after a header line is recognized
(source: the `blameInfo` initializer in `parseBlameOutput`). -/
def initBlameInfo (commitSha : JSStr) (finalLine : Nat) : BlameLineInfo :=
  { lineNumber := finalLine
    commitSha := commitSha
    author := []
    authorMail := []
    authorTime := some 0
    authorTz := []
    summary := []
    isUncommitted := commitSha = uncommittedShaSentinel
    filename := [] }

/-- One step of the metadata scan: matches the source's
`if (metaLine.startsWith('author ')) ... else if ...` chain. -/
def updateMeta (info : BlameLineInfo) (metaLine : JSStr) : BlameLineInfo :=
  if (String.toList "author ").isPrefixOf metaLine then
    { info with author := metaLine.drop 7 }
  else if (String.toList "author-mail ").isPrefixOf metaLine then
    { info with authorMail := metaLine.drop 12 }
  else if (String.toList "author-time ").isPrefixOf metaLine then
    { info with authorTime := parseJsInt (metaLine.drop 12) }
  else if (String.toList "author-tz ").isPrefixOf metaLine then
    { info with authorTz := metaLine.drop 10 }
  else if (String.toList "summary ").isPrefixOf metaLine then
    { info with summary := metaLine.drop 8 }
  else if (String.toList "filename ").isPrefixOf metaLine then
    { info with filename := metaLine.drop 9 }
  else info

/-- The inner metadata loop of `parseBlameOutput`: consume metadata lines
until the first line starting with a tab (the content line, which is also
consumed) or the end of input; returns the updated record and the remaining
raw lines. -/
def parseMeta : BlameLineInfo → List JSStr → BlameLineInfo × List JSStr
  | info, [] => (info, [])
  | info, l :: ls =>
    if startsTab l then (info, ls)
    else parseMeta (updateMeta info l) ls

/-- The source's post-scan check: an author field equal to
`"Not Committed Yet"` or containing `"not committed"` (lowercased) marks the
line uncommitted. -/
def isNotCommittedAuthor (author : JSStr) : Bool :=
  author = (String.toList "Not Committed Yet") ||
  containsSub (asciiLowerStr author) (String.toList "not committed")

/-- Applies the `isUncommitted` author override after the metadata scan. -/
def finalizeUncommitted (info : BlameLineInfo) : BlameLineInfo :=
  if isNotCommittedAuthor info.author then { info with isUncommitted := true }
  else info

/-- The outer block loop of `parseBlameOutput`.  The `fuel` argument bounds
the number of iterations: every iteration consumes at least one raw line, so
passing the number of raw lines (as `parseBlameOutput` does) makes the model
agree with the source's `while` loop; see `parseLoop_fuel`. -/
def parseLoop : Nat → List JSStr → JSMap Nat BlameLineInfo → JSMap Nat BlameLineInfo
  | 0, _, acc => acc
  | _ + 1, [], acc => acc
  | fuel + 1, l :: ls, acc =>
    if isBlankStr l then parseLoop fuel ls acc
    else
      match matchHeader l with
      | none => parseLoop fuel ls acc
      | some (sha, finalLine) =>
        let r := parseMeta (initBlameInfo sha finalLine) ls
        parseLoop fuel r.2 (mapSet acc finalLine (finalizeUncommitted r.1))

/-- Model of `parseBlameOutput` in `src/blame/blameParser.ts`.  The source's
`catch` branch is unreachable in the model (none of the scanned operations
throws), so `success` is always `true`; `lineCount` is the map's size, which
`mapSet` keeps equal to the number of distinct line numbers. -/
def parseBlameOutput (blameOutput : String) : BlameParseResult :=
  let cs := blameOutput.toList
  if isBlankStr cs then
    { success := true, lines := [], error := none, lineCount := 0 }
  else
    let rawLines := splitOnNl cs
    let m := parseLoop rawLines.length rawLines []
    { success := true, lines := m, error := none, lineCount := m.length }

example : isBlankStr (String.toList "   ") = true := by decide
example : parseJsInt (String.toList " -42x") = some (-42) := by decide
example : parseJsInt (String.toList "zz") = none := by decide
example : splitOnNl (String.toList "a\nb") = [['a'], ['b']] := by decide
example : (matchHeader (String.toList
    "abc123def456789012345678901234567890abcd 1 1 1")).isSome = true := by decide
example : matchHeader (String.toList "not a header") = none := by decide

/-- Truncation toward zero of a rational (JS `%` truncates the quotient). -/
def ratTrunc (q : ℚ) : Int := if 0 ≤ q then ⌊q⌋ else ⌈q⌉

/-- Model of the JS remainder operator `%` on finite numbers. -/
def jsMod (a b : ℚ) : ℚ := a - b * (ratTrunc (a / b) : ℚ)

/-- Model of JS `Math.round`: round half away from zero upward. -/
def jsRound (q : ℚ) : Int := ⌊q + 1 / 2⌋

/-- An `rgba(r, g, b, a)` color value.  The source renders it as a string;
the claims never inspect the string, so the model keeps the four numeric
components. -/
structure Rgba where
  r : Int
  g : Int
  b : Int
  a : ℚ
deriving DecidableEq, Repr

/-- Heatmap color configuration (source: `HeatmapConfig` in
`src/highlight/heatmap.ts`). -/
structure HeatmapConfig where
  coldHue : ℚ
  hotHue : ℚ
  saturation : ℚ
  lightness : ℚ
  opacity : ℚ
deriving DecidableEq, Repr

/-- Source constant `DEFAULT_HEATMAP_CONFIG` (opacity 0.30). -/
def DEFAULT_HEATMAP_CONFIG : HeatmapConfig :=
  { coldHue := 240, hotHue := 160, saturation := 55, lightness := 45, opacity := 3 / 10 }

/-- Heatmap line data with computed color (source: `HeatmapLineData`).
`ageNorm` models the source field `ageRatio` (0 = oldest, 1 = newest);
`none` models a NaN ratio, which arises when a committed line's
`author-time` field failed to parse (`parseInt` returned NaN). -/
structure HeatmapLineData where
  lineNumber : Nat
  color : Rgba
  ageNorm : Option ℚ
  timestamp : Option Int
deriving DecidableEq, Repr

/-- Model of `hslToRgba` in `src/highlight/heatmap.ts`.  A `none` hue models
a NaN hue: every one of the six sector comparisons is then false, so `r`,
`g`, `b` keep their initial value 0, exactly as in IEEE arithmetic. -/
def hslToRgba (h : Option ℚ) (s l a : ℚ) : Rgba :=
  let s1 := s / 100
  let l1 := l / 100
  let c := (1 - |2 * l1 - 1|) * s1
  let m := l1 - c / 2
  let rgb : ℚ × ℚ × ℚ :=
    match h with
    | none => (0, 0, 0)
    | some h =>
      let x := c * (1 - |jsMod (h / 60) 2 - 1|)
      if 0 ≤ h ∧ h < 60 then (c, x, 0)
      else if 60 ≤ h ∧ h < 120 then (x, c, 0)
      else if 120 ≤ h ∧ h < 180 then (0, c, x)
      else if 180 ≤ h ∧ h < 240 then (0, x, c)
      else if 240 ≤ h ∧ h < 300 then (x, 0, c)
      else if 300 ≤ h ∧ h < 360 then (c, 0, x)
      else (0, 0, 0)
  { r := jsRound ((rgb.1 + m) * 255)
    g := jsRound ((rgb.2.1 + m) * 255)
    b := jsRound ((rgb.2.2 + m) * 255)
    a := a }

/-- Model of `interpolateHue`: direct linear interpolation between the cold
and hot hues (NaN in, NaN out). -/
def interpolateHue (coldHue hotHue : ℚ) (t : Option ℚ) : Option ℚ :=
  t.map (fun q => coldHue + (hotHue - coldHue) * q)

/-- Model of `getHeatmapColor`. -/
def getHeatmapColor (ageRat : Option ℚ) (config : HeatmapConfig) : Rgba :=
  hslToRgba (interpolateHue config.coldHue config.hotHue ageRat)
    config.saturation config.lightness config.opacity

/-- Model of `calculateHeatmap` in `src/highlight/heatmap.ts`.  First pass:
min/max over committed lines with `authorTime > 0` (the `Infinity` /
`-Infinity` seeds are modelled by the `Option` accumulator — the first
qualifying timestamp always replaces them).  Second pass: every committed
line (no timestamp filter, exactly as in the source) gets
`ageRatio = (authorTime - minTime) / timeRange` when `timeRange > 0`, else
0; a NaN timestamp yields a NaN ratio.  Result sorted by line number. -/
def calculateHeatmap (blameResult : BlameParseResult) (config : HeatmapConfig) :
    List HeatmapLineData :=
  let mm : Option (Int × Int) :=
    blameResult.lines.foldl (fun mm kv =>
      if kv.2.isUncommitted then mm
      else
        match kv.2.authorTime with
        | some t =>
          if 0 < t then
            match mm with
            | none => some (t, t)
            | some p => some (min p.1 t, max p.2 t)
          else mm
        | none => mm) none
  match mm with
  | none => []
  | some p =>
    let timeRange : Int := p.2 - p.1
    let ls := blameResult.lines.foldl (fun acc kv =>
      if kv.2.isUncommitted then acc
      else
        let ageRat : Option ℚ :=
          if 0 < timeRange then
            match kv.2.authorTime with
            | some t => some (((t - p.1 : Int) : ℚ) / (timeRange : ℚ))
            | none => none
          else some 0
        acc ++ [{ lineNumber := kv.1
                  color := getHeatmapColor ageRat config
                  ageNorm := ageRat
                  timestamp := kv.2.authorTime }]) []
    ls.insertionSort (fun d e => d.lineNumber ≤ e.lineNumber)

/-- Model of `groupHeatmapByColor` in `src/highlight/heatmap.ts`:
`bucketIndex = Math.min(Math.floor(ageRatio * buckets), buckets - 1)`, one
shared color per bucket computed at the bucket midpoint.  A NaN age ratio
gives the NaN bucket index (`none`): `Math.floor` and `Math.min` both return
NaN on NaN, and NaN is a valid JS `Map` key. -/
def groupHeatmapByColor (heatmapData : List HeatmapLineData) (buckets : Int)
    (config : HeatmapConfig) : JSMap (Option Int) (Rgba × List Nat) :=
  heatmapData.foldl (fun groups data =>
    let bucketIndex : Option Int :=
      data.ageNorm.map (fun q => min ⌊q * (buckets : ℚ)⌋ (buckets - 1))
    let groups1 :=
      match mapGet groups bucketIndex with
      | some _ => groups
      | none =>
        let bucketMid : Option ℚ :=
          bucketIndex.map (fun i : Int => ((i : ℚ) + 1 / 2) / (buckets : ℚ))
        mapSet groups bucketIndex (getHeatmapColor bucketMid config, [])
    match mapGet groups1 bucketIndex with
    | some g => mapSet groups1 bucketIndex (g.1, g.2 ++ [data.lineNumber])
    | none => groups1) []

/-- The JS `<` comparison between a possibly-NaN number and a number: any
comparison with NaN is false. -/
def jsNumLt (a : Option Int) (b : Int) : Bool :=
  match a with
  | some x => decide (x < b)
  | none => false

/-- Model of `filterLinesByTime` in `src/blame/blameParser.ts`: committed
lines whose author timestamp (seconds) is at least the cutoff (milliseconds)
divided by 1000, in ascending order (`Array.prototype.sort` with a numeric
comparator). -/
def filterLinesByTime (blameResult : BlameParseResult) (cutoffTimestamp : Int) :
    List Nat :=
  let cutoffSeconds : ℚ := (cutoffTimestamp : ℚ) / 1000
  let recent := blameResult.lines.foldl (fun acc kv =>
    if !kv.2.isUncommitted &&
        (match kv.2.authorTime with
         | some t => decide (cutoffSeconds ≤ (t : ℚ))
         | none => false) then
      acc ++ [kv.1]
    else acc) []
  recent.insertionSort (· ≤ ·)

/-- Model of `LineDecorator.applySpecificAuthorHighlighting`: the sorted
list of line numbers the method stores in `highlightedLines` (and
decorates).  A line matches when its author equals the target
case-insensitively; committed and uncommitted lines alike are scanned. -/
def applySpecificAuthorHighlighting (blameResult : BlameParseResult)
    (authorName : JSStr) : List Nat :=
  let matching := blameResult.lines.foldl (fun acc kv =>
    if asciiLowerStr kv.2.author = asciiLowerStr authorName then acc ++ [kv.1]
    else acc) []
  matching.insertionSort (· ≤ ·)

/-- Model of `LineDecorator.applySpecificCommitHighlighting`: the sorted
list of line numbers whose commit id starts with the target string;
committed and uncommitted lines alike are scanned. -/
def applySpecificCommitHighlighting (blameResult : BlameParseResult)
    (commitSha : JSStr) : List Nat :=
  let matching := blameResult.lines.foldl (fun acc kv =>
    if commitSha.isPrefixOf kv.2.commitSha then acc ++ [kv.1]
    else acc) []
  matching.insertionSort (· ≤ ·)

/-- Model of `LineDecorator.goToNextHighlight`: over the stored highlighted
lines, the first one strictly greater than the current line, wrapping to the
first highlighted line; `none` when nothing is highlighted.  The cursor
movement is stripped; `currentLine` is the 1-indexed cursor line the source
computes from the editor selection. -/
def goToNextHighlight (highlightedLines : List Nat) (currentLine : Nat) : Option Nat :=
  match highlightedLines with
  | [] => none
  | first :: rest =>
    match (first :: rest).find? (fun l => decide (currentLine < l)) with
    | some nextLine => some nextLine
    | none => some first

/-- Model of `LineDecorator.goToPreviousHighlight`: the last highlighted
line strictly less than the current line, wrapping to the last highlighted
line; `none` when nothing is highlighted. -/
def goToPreviousHighlight (highlightedLines : List Nat) (currentLine : Nat) : Option Nat :=
  match highlightedLines with
  | [] => none
  | first :: rest =>
    let previousLines := (first :: rest).filter (fun l => decide (l < currentLine))
    match previousLines.getLast? with
    | some previousLine => some previousLine
    | none => some ((first :: rest).getLast (List.cons_ne_nil first rest))

/-- A cache entry (source: `BlameCacheEntry` in `src/blame/blameCache.ts`).
`cachedAt` is the `Date.now()` millisecond timestamp taken when the entry
was stored. -/
structure BlameCacheEntry where
  blameResult : BlameParseResult
  headCommit : JSStr
  cachedAt : Nat
  filePath : JSStr
deriving DecidableEq, Repr

/-- The blame cache state (source: class `BlameCache`). -/
structure BlameCache where
  cache : JSMap JSStr BlameCacheEntry
  hits : Nat
  misses : Nat
  maxEntries : Nat
deriving DecidableEq, Repr

/-- The cache produced by `new BlameCache(maxEntries)`. -/
def emptyBlameCache (maxEntries : Nat) : BlameCache :=
  { cache := [], hits := 0, misses := 0, maxEntries := maxEntries }

/-- Model of the private `getCacheKey`: normalize path separators
(backslash to slash) and lowercase. -/
def getCacheKey (filePath : JSStr) : JSStr :=
  (filePath.map (fun c => if c = '\\' then '/' else c)).map asciiLower

/-- Model of `BlameCache.get`: a hit requires the stored entry's
`headCommit` to equal `currentHeadCommit`; a missing or stale entry is a
miss and the map itself is left untouched (only the counters change). -/
def BlameCache.get (c : BlameCache) (filePath currentHeadCommit : JSStr) :
    Option BlameParseResult × BlameCache :=
  let key := getCacheKey filePath
  match mapGet c.cache key with
  | none => (none, { c with misses := c.misses + 1 })
  | some entry =>
    if entry.headCommit = currentHeadCommit then
      (some entry.blameResult, { c with hits := c.hits + 1 })
    else
      (none, { c with misses := c.misses + 1 })

/-- One step of the `evictOldest` scan of the source: keep the entry with
the strictly smallest `cachedAt` (ties keep the earlier entry; the
`Infinity` seed is the `none` accumulator, which the first entry always
replaces since every `cachedAt` is below `Infinity`). -/
def oldestStep (best : Option (JSStr × BlameCacheEntry)) (kv : JSStr × BlameCacheEntry) :
    Option (JSStr × BlameCacheEntry) :=
  match best with
  | none => some kv
  | some b => if kv.2.cachedAt < b.2.cachedAt then some kv else best

/-- The scan inside `BlameCache.evictOldest`: iterate the map in insertion
order keeping the oldest entry. -/
def findOldest (m : JSMap JSStr BlameCacheEntry) : Option (JSStr × BlameCacheEntry) :=
  m.foldl oldestStep none

/-- Model of the private `BlameCache.evictOldest`.  The source guards the
deletion with the JS truthiness test `if (oldestKey)`, which is false both
for `undefined` (empty cache) and for the empty-string key — so an entry
whose key is the empty string is never evicted. -/
def evictOldest (m : JSMap JSStr BlameCacheEntry) : JSMap JSStr BlameCacheEntry :=
  match findOldest m with
  | none => m
  | some kv => if kv.1 = [] then m else mapDelete m kv.1

/-- Model of `BlameCache.set`: evict the oldest entry when inserting a
genuinely new key at capacity, then store the entry.  `now` is the
`Date.now()` value the source reads. -/
def BlameCache.set (c : BlameCache) (filePath headCommit : JSStr)
    (blameResult : BlameParseResult) (now : Nat) : BlameCache :=
  let key := getCacheKey filePath
  let newEntry : BlameCacheEntry :=
    { blameResult := blameResult, headCommit := headCommit,
      cachedAt := now, filePath := filePath }
  let cache1 :=
    if decide (c.maxEntries ≤ c.cache.length) && !mapHas c.cache key then
      evictOldest c.cache
    else c.cache
  { c with cache := mapSet cache1 key newEntry }

/-- Model of `BlameCache.delete`. -/
def BlameCache.delete (c : BlameCache) (filePath : JSStr) : BlameCache :=
  { c with cache := mapDelete c.cache (getCacheKey filePath) }

/-- Model of `BlameCache.clear`. -/
def BlameCache.clear (c : BlameCache) : BlameCache :=
  { c with cache := [], hits := 0, misses := 0 }

/-- Model of `BlameCache.invalidateForHeadChange`: collect the keys of the
entries whose stored head differs from the new head, then delete them. -/
def BlameCache.invalidateForHeadChange (c : BlameCache) (newHeadCommit : JSStr) :
    BlameCache :=
  let keysToDelete := c.cache.foldl (fun acc kv =>
    if kv.2.headCommit = newHeadCommit then acc else acc ++ [kv.1]) []
  { c with cache := keysToDelete.foldl (fun m k => mapDelete m k) c.cache }

/-- One operation on the blame cache, for stating state-invariant claims
over arbitrary call sequences.  `set` carries the `Date.now()` value
observed at the call. -/
inductive CacheOp where
  | get (filePath currentHeadCommit : JSStr)
  | set (filePath headCommit : JSStr) (blameResult : BlameParseResult) (now : Nat)
  | delete (filePath : JSStr)
  | invalidateForHeadChange (newHeadCommit : JSStr)
  | clear
deriving DecidableEq, Repr

/-- Apply one cache operation to the state (a `get` returns a value and a
state; only the state matters for the invariant claims). -/
def applyCacheOp (c : BlameCache) : CacheOp → BlameCache
  | CacheOp.get fp head => (BlameCache.get c fp head).2
  | CacheOp.set fp head r now => BlameCache.set c fp head r now
  | CacheOp.delete fp => BlameCache.delete c fp
  | CacheOp.invalidateForHeadChange head => BlameCache.invalidateForHeadChange c head
  | CacheOp.clear => BlameCache.clear c

/-- Apply a sequence of cache operations from left to right. -/
def applyCacheOps (c : BlameCache) (ops : List CacheOp) : BlameCache :=
  ops.foldl applyCacheOp c

/-! ### Generic lemmas about the `JSMap` model -/

/-- Every element of `mapSet m k v` is either the new binding `(k, v)` or an
element of `m`. -/
theorem mem_mapSet {K V : Type} [DecidableEq K] {m : JSMap K V} {k : K} {v : V}
    {x : K × V} (hx : x ∈ mapSet m k v) : x = (k, v) ∨ x ∈ m := by
  unfold mapSet at hx
  split at hx
  · rcases List.mem_map.mp hx with ⟨y, hy, hxy⟩
    by_cases h : y.1 = k
    · left
      simpa [h] using hxy.symm
    · right
      have hx2 : x = y := by simpa [h] using hxy.symm
      exact hx2 ▸ hy
  · rcases List.mem_append.mp hx with h | h
    · exact Or.inr h
    · exact Or.inl (by simpa using h)

/-- The keys of `mapSet m k v` are the keys of `m` when `k` is already
present, else the keys of `m` with `k` appended. -/
theorem keys_mapSet {K V : Type} [DecidableEq K] (m : JSMap K V) (k : K) (v : V) :
    (mapSet m k v).map Prod.fst =
      (if mapHas m k then m.map Prod.fst else m.map Prod.fst ++ [k]) := by
  unfold mapSet
  split
  · simp only [if_pos (by assumption), List.map_map]
    apply List.map_congr_left
    intro kv _
    by_cases h : kv.1 = k
    · simp [h]
    · simp [h]
  · simp [if_neg (by assumption)]

/-- `mapSet` preserves distinctness of keys. -/
theorem nodup_keys_mapSet {K V : Type} [DecidableEq K] {m : JSMap K V} {k : K} {v : V}
    (hm : (m.map Prod.fst).Nodup) : ((mapSet m k v).map Prod.fst).Nodup := by
  rw [keys_mapSet]
  split
  · exact hm
  · rename_i hhas
    rw [List.nodup_append]
    refine ⟨hm, List.nodup_singleton k, ?_⟩
    intro a ha hb
    rcases List.mem_map.mp ha with ⟨kv, hkv, rfl⟩
    have : mapHas m kv.1 = true := List.any_eq_true.mpr ⟨kv, hkv, by simp⟩
    simp only [List.mem_singleton] at hb
    exact hhas (hb ▸ this)

/-- A successful `mapGet` exhibits a member of the map satisfying the key. -/
theorem mapGet_eq_some {K V : Type} [DecidableEq K] {m : JSMap K V} {k : K} {v : V}
    (h : mapGet m k = some v) : (k, v) ∈ m := by
  unfold mapGet at h
  rcases Option.map_eq_some'.mp h with ⟨kv, hfind, hsnd⟩
  have hmem := List.mem_of_find?_eq_some hfind
  have hkey := List.find?_some hfind
  simp only [decide_eq_true_eq] at hkey
  have : kv = (k, v) := by
    cases kv
    simp only at hkey hsnd
    simp [hkey, hsnd]
  exact this ▸ hmem

/-! ### Parser invariants -/

/-- `updateMeta` never touches the commit id or the uncommitted flag. -/
theorem updateMeta_preserves (info : BlameLineInfo) (l : JSStr) :
    (updateMeta info l).commitSha = info.commitSha ∧
      (updateMeta info l).isUncommitted = info.isUncommitted := by
  unfold updateMeta
  repeat' split
  all_goals simp

/-- The metadata loop never touches the commit id or the uncommitted flag. -/
theorem parseMeta_preserves :
    ∀ (ls : List JSStr) (info : BlameLineInfo),
      ((parseMeta info ls).1).commitSha = info.commitSha ∧
        ((parseMeta info ls).1).isUncommitted = info.isUncommitted
  | [], info => ⟨rfl, rfl⟩
  | l :: ls, info => by
    unfold parseMeta
    split
    · exact ⟨rfl, rfl⟩
    · have ih := parseMeta_preserves ls (updateMeta info l)
      have hu := updateMeta_preserves info l
      exact ⟨hu.1 ▸ ih.1, hu.2 ▸ ih.2⟩

/-- The record relation claimed by the spec: the uncommitted flag agrees
with the sentinel-or-author rule, stated on the record's own fields. -/
def uncommittedInvariant (info : BlameLineInfo) : Prop :=
  info.isUncommitted =
    (decide (info.commitSha = uncommittedShaSentinel) || isNotCommittedAuthor info.author)

/-- Every record the block loop inserts satisfies `uncommittedInvariant`. -/
theorem parseLoop_uncommittedInvariant :
    ∀ (fuel : Nat) (ls : List JSStr) (acc : JSMap Nat BlameLineInfo),
      (∀ kv ∈ acc, uncommittedInvariant kv.2) →
      ∀ kv ∈ parseLoop fuel ls acc, uncommittedInvariant kv.2
  | 0, _, acc, hacc => hacc
  | _ + 1, [], acc, hacc => hacc
  | fuel + 1, l :: ls, acc, hacc => by
    unfold parseLoop
    split
    · exact parseLoop_uncommittedInvariant fuel ls acc hacc
    · split
      · exact parseLoop_uncommittedInvariant fuel ls acc hacc
      · rename_i sha finalLine heq
        apply parseLoop_uncommittedInvariant fuel
        intro kv hkv
        rcases mem_mapSet hkv with hnew | hold
        · subst hnew
          have hp := parseMeta_preserves ls (initBlameInfo sha finalLine)
          unfold uncommittedInvariant finalizeUncommitted
          split
          · rename_i hauth
            simp only
            rw [hauth]
            simp
          · rename_i hauth
            simp only
            have hfalse :
                isNotCommittedAuthor (parseMeta (initBlameInfo sha finalLine) ls).1.author
                  = false := Bool.eq_false_iff.mpr hauth
            rw [hfalse, Bool.or_false, hp.1, hp.2]
            unfold initBlameInfo
            simp
        · exact hacc kv hold

/-- The block loop preserves distinctness of the line-number keys. -/
theorem parseLoop_nodup_keys :
    ∀ (fuel : Nat) (ls : List JSStr) (acc : JSMap Nat BlameLineInfo),
      (acc.map Prod.fst).Nodup → ((parseLoop fuel ls acc).map Prod.fst).Nodup
  | 0, _, _, hacc => hacc
  | _ + 1, [], _, hacc => hacc
  | fuel + 1, l :: ls, acc, hacc => by
    unfold parseLoop
    split
    · exact parseLoop_nodup_keys fuel ls acc hacc
    · split
      · exact parseLoop_nodup_keys fuel ls acc hacc
      · exact parseLoop_nodup_keys fuel _ _ (nodup_keys_mapSet hacc)

/-- C5: for every record produced by `parseBlameOutput`, `isUncommitted` is
true exactly when the commit id equals the 40-zero sentinel, or the parsed
author equals "Not Committed Yet", or the lowercased author contains the
substring "not committed"; in particular a sentinel commit id forces
`isUncommitted` regardless of the author field. -/
theorem c5_parse_uncommitted_flag (s : String) (n : Nat) (info : BlameLineInfo)
    (h : mapGet (parseBlameOutput s).lines n = some info) :
    (info.isUncommitted = true ↔
      (info.commitSha = uncommittedShaSentinel ∨
        info.author = String.toList "Not Committed Yet" ∨
        containsSub (asciiLowerStr info.author) (String.toList "not committed") = true)) ∧
    (info.commitSha = uncommittedShaSentinel → info.isUncommitted = true) := by
  have hmem : (n, info) ∈ (parseBlameOutput s).lines := mapGet_eq_some h
  have hinv : uncommittedInvariant info := by
    simp only [parseBlameOutput] at hmem
    split at hmem
    · simp at hmem
    · exact parseLoop_uncommittedInvariant _ _ [] (by simp) (n, info) hmem
  unfold uncommittedInvariant isNotCommittedAuthor at hinv
  constructor
  · rw [hinv]
    simp [Bool.or_eq_true, decide_eq_true_eq, or_assoc]
  · intro hsha
    rw [hinv]
    simp [hsha]

/-- Raw blame text exercising the uncommitted-author rule: one block whose
author field is exactly "Not Committed Yet" under an ordinary commit id. -/
def c5Input : String :=
  "aaaaaaaaaaaaaaaaaaaaaaaaaaaaaaaaaaaaaaaa 1 1\nauthor Not Committed Yet\n\tx"

/-- The record `parseBlameOutput` produces for line 1 of `c5Input`. -/
def c5Record : BlameLineInfo :=
  { lineNumber := 1
    commitSha := String.toList "aaaaaaaaaaaaaaaaaaaaaaaaaaaaaaaaaaaaaaaa"
    author := String.toList "Not Committed Yet"
    authorMail := []
    authorTime := some 0
    authorTz := []
    summary := []
    isUncommitted := true
    filename := [] }

/-- Witness for C5 at a concrete parsed record. -/
theorem c5_witness :
    mapGet (parseBlameOutput c5Input).lines 1 = some c5Record ∧
      ((c5Record.isUncommitted = true ↔
        (c5Record.commitSha = uncommittedShaSentinel ∨
          c5Record.author = String.toList "Not Committed Yet" ∨
          containsSub (asciiLowerStr c5Record.author)
            (String.toList "not committed") = true)) ∧
        (c5Record.commitSha = uncommittedShaSentinel → c5Record.isUncommitted = true)) :=
  ⟨by decide, c5_parse_uncommitted_flag c5Input 1 c5Record (by decide)⟩

/-- C10: for every input string the parse result — success or failure — has
`lineCount` equal to the number of entries of its line map (the keys are
distinct, so the map length is the entry count), and a failing result would
have an empty map and zero count. -/
theorem c10_lineCount_matches_lines (s : String) :
    (parseBlameOutput s).lineCount = (parseBlameOutput s).lines.length ∧
      ((parseBlameOutput s).lines.map Prod.fst).Nodup ∧
      ((parseBlameOutput s).success = false →
        (parseBlameOutput s).lines = [] ∧ (parseBlameOutput s).lineCount = 0) := by
  simp only [parseBlameOutput]
  split
  · refine ⟨rfl, by simp, ?_⟩
    intro h
    simp at h
  · refine ⟨rfl, parseLoop_nodup_keys _ _ [] (by simp), ?_⟩
    intro h
    simp at h

/-! ### The select-and-sort pattern shared by the classification functions -/

/-- Membership in the `forEach`-push accumulation pattern: a line number is
collected exactly when it starts from the accumulator or some entry with
that key satisfies the predicate. -/
theorem mem_select_foldl {α : Type} (p : Nat × α → Prop) [DecidablePred p] :
    ∀ (l : List (Nat × α)) (acc : List Nat) (n : Nat),
      (n ∈ l.foldl (fun a kv => if p kv then a ++ [kv.1] else a) acc ↔
        n ∈ acc ∨ ∃ b, (n, b) ∈ l ∧ p (n, b))
  | [], acc, n => by simp
  | kv :: rest, acc, n => by
    rw [List.foldl_cons, mem_select_foldl p rest _ n]
    by_cases hp : p kv
    · simp only [if_pos hp, List.mem_append, List.mem_singleton]
      constructor
      · rintro ((h | h) | ⟨b, hb, hpb⟩)
        · exact Or.inl h
        · subst h
          exact Or.inr ⟨kv.2, List.mem_cons_self _ _, by simpa using hp⟩
        · exact Or.inr ⟨b, List.mem_cons_of_mem _ hb, hpb⟩
      · rintro (h | ⟨b, hb, hpb⟩)
        · exact Or.inl (Or.inl h)
        · rcases List.mem_cons.mp hb with heq | hmem
          · refine Or.inl (Or.inr ?_)
            rw [← heq]
          · exact Or.inr ⟨b, hmem, hpb⟩
    · simp only [if_neg hp]
      constructor
      · rintro (h | ⟨b, hb, hpb⟩)
        · exact Or.inl h
        · exact Or.inr ⟨b, List.mem_cons_of_mem _ hb, hpb⟩
      · rintro (h | ⟨b, hb, hpb⟩)
        · exact Or.inl h
        · rcases List.mem_cons.mp hb with heq | hmem
          · exact absurd (heq ▸ hpb) hp
          · exact Or.inr ⟨b, hmem, hpb⟩

/-- The `forEach`-push accumulation yields a sublist of the keys. -/
theorem select_foldl_sublist {α : Type} (p : Nat × α → Prop) [DecidablePred p] :
    ∀ (l : List (Nat × α)) (acc : List Nat),
      (l.foldl (fun a kv => if p kv then a ++ [kv.1] else a) acc).Sublist
        (acc ++ l.map Prod.fst)
  | [], acc => by simp
  | kv :: rest, acc => by
    rw [List.foldl_cons]
    by_cases hp : p kv
    · rw [if_pos hp]
      have h := select_foldl_sublist p rest (acc ++ [kv.1])
      simpa using h
    · rw [if_neg hp]
      refine (select_foldl_sublist p rest acc).trans ?_
      simp only [List.map_cons]
      exact (List.sublist_cons_self _ _).append_left acc

/-- C6: `filterLinesByTime` returns exactly the line numbers of records
that are committed and whose author timestamp (in seconds) is at least the
cutoff (milliseconds) divided by 1000, in ascending order (without
duplicates whenever the line map's keys are distinct, as the parser
guarantees). -/
theorem c6_filterLinesByTime_spec (blameResult : BlameParseResult) (cutoffTimestamp : Int) :
    (filterLinesByTime blameResult cutoffTimestamp).Sorted (· ≤ ·) ∧
      ((blameResult.lines.map Prod.fst).Nodup →
        (filterLinesByTime blameResult cutoffTimestamp).Nodup) ∧
      ∀ n, n ∈ filterLinesByTime blameResult cutoffTimestamp ↔
        ∃ info, (n, info) ∈ blameResult.lines ∧ info.isUncommitted = false ∧
          ∃ t, info.authorTime = some t ∧ (cutoffTimestamp : ℚ) / 1000 ≤ (t : ℚ) := by
  refine ⟨List.sorted_insertionSort _ _, ?_, ?_⟩
  · intro hnd
    simp only [filterLinesByTime]
    rw [(List.perm_insertionSort _ _).nodup_iff]
    refine List.Nodup.sublist ?_ hnd
    simpa using select_foldl_sublist
      (fun kv : Nat × BlameLineInfo => (!kv.2.isUncommitted &&
        (match kv.2.authorTime with
         | some t => decide ((cutoffTimestamp : ℚ) / 1000 ≤ (t : ℚ))
         | none => false)) = true) blameResult.lines []
  · intro n
    simp only [filterLinesByTime, List.mem_insertionSort]
    rw [mem_select_foldl
      (fun kv : Nat × BlameLineInfo => (!kv.2.isUncommitted &&
        (match kv.2.authorTime with
         | some t => decide ((cutoffTimestamp : ℚ) / 1000 ≤ (t : ℚ))
         | none => false)) = true)]
    simp only [List.not_mem_nil, false_or]
    constructor
    · rintro ⟨b, hb, hpb⟩
      rw [Bool.and_eq_true] at hpb
      refine ⟨b, hb, by simpa using hpb.1, ?_⟩
      rcases ht : b.authorTime with _ | t
      · rw [ht] at hpb
        simp at hpb
      · rw [ht] at hpb
        exact ⟨t, rfl, by simpa using hpb.2⟩
    · rintro ⟨info, hmem, hunc, t, ht, hle⟩
      refine ⟨info, hmem, ?_⟩
      rw [Bool.and_eq_true, ht]
      exact ⟨by simp [hunc], by simpa using hle⟩

/-- C2 (amended): in `specificAuthor` mode a line — committed or
uncommitted — is highlighted exactly when its author equals the target
case-insensitively, and in `specificCommit` mode exactly when its commit id
starts with the target string; neither mode checks the other criterion. -/
theorem c2_specific_modes_exact (blameResult : BlameParseResult) (target : JSStr) (n : Nat) :
    (n ∈ applySpecificAuthorHighlighting blameResult target ↔
      ∃ info, (n, info) ∈ blameResult.lines ∧
        asciiLowerStr info.author = asciiLowerStr target) ∧
    (n ∈ applySpecificCommitHighlighting blameResult target ↔
      ∃ info, (n, info) ∈ blameResult.lines ∧
        target.isPrefixOf info.commitSha = true) := by
  constructor
  · simp only [applySpecificAuthorHighlighting, List.mem_insertionSort]
    rw [mem_select_foldl
      (fun kv : Nat × BlameLineInfo => asciiLowerStr kv.2.author = asciiLowerStr target)]
    simp
  · simp only [applySpecificCommitHighlighting, List.mem_insertionSort]
    rw [mem_select_foldl
      (fun kv : Nat × BlameLineInfo => target.isPrefixOf kv.2.commitSha = true)]
    simp

/-- A blame record with author "alice" and a commit id of forty `b`
characters. -/
def c2Info : BlameLineInfo :=
  { lineNumber := 1
    commitSha := String.toList "bbbbbbbbbbbbbbbbbbbbbbbbbbbbbbbbbbbbbbbb"
    author := String.toList "alice"
    authorMail := []
    authorTime := some 100
    authorTz := []
    summary := []
    isUncommitted := false
    filename := [] }

/-- A one-line blame result holding `c2Info`. -/
def c2Result : BlameParseResult :=
  { success := true, lines := [(1, c2Info)], error := none, lineCount := 1 }

/-- An abbreviated form of the commit id of `c2Result`, used as the target. -/
def c2Target : JSStr := String.toList "bbbb"

/-- Counterexample to C2 as stated: in `specificAuthor` mode, a line whose
commit id starts with the target but whose author differs is not
highlighted, although the claimed author-or-commit disjunction holds. -/
theorem c2_counterexample :
    ¬ (1 ∈ applySpecificAuthorHighlighting c2Result c2Target ↔
        ∃ info, (1, info) ∈ c2Result.lines ∧
          (asciiLowerStr info.author = asciiLowerStr c2Target ∨
            c2Target.isPrefixOf info.commitSha = true)) := by
  intro h
  have hempty : applySpecificAuthorHighlighting c2Result c2Target = [] := by decide
  have h1 : (1 ∈ applySpecificAuthorHighlighting c2Result c2Target) := by
    refine h.mpr ?_
    refine ⟨c2Info, by decide, Or.inr (by decide)⟩
  rw [hempty] at h1
  simp at h1

/-! ### Navigation lemmas -/

/-- On a strictly sorted list, `find?` for "greater than the cursor" returns
the least element beyond the cursor. -/
theorem find_gt_min {cur : Nat} :
    ∀ {hl : List Nat}, hl.Sorted (· < ·) →
      ∀ {t : Nat}, hl.find? (fun l => decide (cur < l)) = some t →
        t ∈ hl ∧ cur < t ∧ ∀ x ∈ hl, cur < x → t ≤ x := by
  intro hl
  induction hl with
  | nil => intro _ t h; simp at h
  | cons a rest ih =>
    intro hs t h
    rcases List.sorted_cons.mp hs with ⟨ha, hrest⟩
    by_cases hca : cur < a
    · rw [List.find?_cons_of_pos _ (by simpa using hca)] at h
      obtain rfl : a = t := by simpa using h
      refine ⟨List.mem_cons_self _ _, hca, ?_⟩
      intro x hx _
      rcases List.mem_cons.mp hx with rfl | hx
      · exact le_refl x
      · exact le_of_lt (ha x hx)
    · rw [List.find?_cons_of_neg _ (by simpa using hca)] at h
      obtain ⟨hmem, hct, hmin⟩ := ih hrest h
      refine ⟨List.mem_cons_of_mem _ hmem, hct, ?_⟩
      intro x hx hcx
      rcases List.mem_cons.mp hx with rfl | hx
      · exact absurd hcx hca
      · exact hmin x hx hcx

/-- On a strictly sorted list, `getLast?` returns a maximum. -/
theorem sorted_getLast_max :
    ∀ {l : List Nat}, l.Sorted (· < ·) →
      ∀ {p : Nat}, l.getLast? = some p → ∀ x ∈ l, x ≤ p := by
  intro l
  induction l with
  | nil => intro _ p h; simp at h
  | cons a rest ih =>
    intro hs p h x hx
    rcases List.sorted_cons.mp hs with ⟨ha, hrest⟩
    cases rest with
    | nil =>
      obtain rfl : a = p := by simpa using h
      exact le_of_eq (by simpa using hx)
    | cons b rest2 =>
      rw [List.getLast?_cons_cons] at h
      have hpmem : p ∈ b :: rest2 := List.mem_of_getLast?_eq_some h
      rcases List.mem_cons.mp hx with rfl | hx
      · exact le_of_lt (ha p hpmem)
      · exact ih hrest h x hx

/-- C7: over a strictly ascending navigation sequence, next-navigation
returns the smallest highlighted line strictly greater than the current
line, wrapping to the first highlighted line when none is greater;
previous-navigation returns the largest highlighted line strictly less than
the current line, wrapping to the last when none is smaller; on the empty
sequence both report none. -/
theorem c7_navigation_wraparound (hl : List Nat) (cur : Nat) (hs : hl.Sorted (· < ·)) :
    (hl = [] → goToNextHighlight hl cur = none ∧ goToPreviousHighlight hl cur = none) ∧
    (hl ≠ [] →
      (∃ t, goToNextHighlight hl cur = some t ∧
        ((t ∈ hl ∧ cur < t ∧ ∀ x ∈ hl, cur < x → t ≤ x) ∨
          ((∀ x ∈ hl, x ≤ cur) ∧ hl.head? = some t))) ∧
      (∃ t, goToPreviousHighlight hl cur = some t ∧
        ((t ∈ hl ∧ t < cur ∧ ∀ x ∈ hl, x < cur → x ≤ t) ∨
          ((∀ x ∈ hl, cur ≤ x) ∧ hl.getLast? = some t)))) := by
  cases hl with
  | nil =>
    exact ⟨fun _ => ⟨rfl, rfl⟩, fun h => absurd rfl h⟩
  | cons a rest =>
    refine ⟨fun h => by simp at h, fun _ => ⟨?_, ?_⟩⟩
    · cases hfind : (a :: rest).find? (fun l => decide (cur < l)) with
      | some t =>
        refine ⟨t, ?_, Or.inl (find_gt_min hs hfind)⟩
        simp [goToNextHighlight, hfind]
      | none =>
        refine ⟨a, by simp [goToNextHighlight, hfind], Or.inr ⟨?_, rfl⟩⟩
        intro x hx
        have := List.find?_eq_none.mp hfind x hx
        simpa using this
    · cases hlast : ((a :: rest).filter (fun l => decide (l < cur))).getLast? with
      | some p =>
        refine ⟨p, by simp [goToPreviousHighlight, hlast], Or.inl ⟨?_, ?_, ?_⟩⟩
        · have := List.mem_of_getLast?_eq_some hlast
          exact (List.mem_filter.mp this).1
        · have := List.mem_of_getLast?_eq_some hlast
          simpa using (List.mem_filter.mp this).2
        · intro x hx hxc
          have hxf : x ∈ (a :: rest).filter (fun l => decide (l < cur)) :=
            List.mem_filter.mpr ⟨hx, by simpa using hxc⟩
          exact sorted_getLast_max (hs.sublist (List.filter_sublist _)) hlast x hxf
      | none =>
        have hnil : (a :: rest).filter (fun l => decide (l < cur)) = [] :=
          List.getLast?_eq_none_iff.mp hlast
        refine ⟨(a :: rest).getLast (List.cons_ne_nil a rest),
          by simp [goToPreviousHighlight, hlast], Or.inr ⟨?_, ?_⟩⟩
        · intro x hx
          have := List.filter_eq_nil_iff.mp hnil x hx
          simpa using this
        · exact (List.getLast?_eq_getLast _ _).symm ▸ rfl

/-- Witness for C7 at the navigation sequence `[3, 7, 12]` of the spec,
including the concrete wraparound examples. -/
theorem c7_witness :
    ([3, 7, 12] : List Nat).Sorted (· < ·) ∧
      (goToNextHighlight [3, 7, 12] 12 = some 3 ∧
        goToPreviousHighlight [3, 7, 12] 3 = some 12) ∧
      (([3, 7, 12] : List Nat) ≠ [] →
        (∃ t, goToNextHighlight [3, 7, 12] 12 = some t ∧
          ((t ∈ ([3, 7, 12] : List Nat) ∧ 12 < t ∧
              ∀ x ∈ ([3, 7, 12] : List Nat), 12 < x → t ≤ x) ∨
            ((∀ x ∈ ([3, 7, 12] : List Nat), x ≤ 12) ∧
              ([3, 7, 12] : List Nat).head? = some t))) ∧
        (∃ t, goToPreviousHighlight [3, 7, 12] 12 = some t ∧
          ((t ∈ ([3, 7, 12] : List Nat) ∧ t < 12 ∧
              ∀ x ∈ ([3, 7, 12] : List Nat), x < 12 → x ≤ t) ∨
            ((∀ x ∈ ([3, 7, 12] : List Nat), 12 ≤ x) ∧
              ([3, 7, 12] : List Nat).getLast? = some t)))) :=
  ⟨by decide, ⟨by decide, by decide⟩,
    (c7_navigation_wraparound [3, 7, 12] 12 (by decide)).2⟩

/-! ### Heatmap claims -/

/-- Raw blame text on which `calculateHeatmap` emits an age ratio outside
`[0, 1]`: lines 1 and 2 carry timestamps 100 and 200, line 3 is a committed
block with no `author-time` metadata, so its `authorTime` stays 0.  The
min/max pass skips it (`authorTime > 0` filter) but the emission pass does
not, giving it `ageRatio = (0 - 100) / 100 = -1`. -/
def heatmapBugInput : String :=
  "aaaaaaaaaaaaaaaaaaaaaaaaaaaaaaaaaaaaaaaa 1 1\nauthor Alice\nauthor-time 100\n\tfoo\nbbbbbbbbbbbbbbbbbbbbbbbbbbbbbbbbbbbbbbbb 2 2\nauthor Bob\nauthor-time 200\n\tbar\ncccccccccccccccccccccccccccccccccccccccc 3 3\n\tbaz\n"

unseal Rat.mul Rat.add Rat.sub Rat.inv Rat.ofScientific in
/-- C1 (code bug evidence): at `heatmapBugInput` the heatmap calculation
produces the age ratios 0, 1 and -1 for lines 1, 2 and 3 — the committed
line with absent timestamp metadata receives an age ratio of -1, violating
the claimed `0 ≤ ageRatio ≤ 1` bound. -/
theorem c1_heatmap_negative_age_at_failing_input :
    (calculateHeatmap (parseBlameOutput heatmapBugInput) DEFAULT_HEATMAP_CONFIG).map
      (fun d => (d.lineNumber, d.ageNorm)) = [(1, some 0), (2, some 1), (3, some (-1))] ∧
    ∃ d ∈ calculateHeatmap (parseBlameOutput heatmapBugInput) DEFAULT_HEATMAP_CONFIG,
      d.ageNorm = some (-1) ∧ ((-1 : ℚ) < 0) := by
  constructor
  · decide
  · decide

/-- Keys of `mapSet m k v` are keys of `m` or the new key `k`. -/
theorem keys_mapSet_subset {K V : Type} [DecidableEq K] {m : JSMap K V} {k : K} {v : V} :
    ∀ x ∈ (mapSet m k v).map Prod.fst, x ∈ m.map Prod.fst ∨ x = k := by
  intro x hx
  rw [keys_mapSet] at hx
  split at hx
  · exact Or.inl hx
  · rcases List.mem_append.mp hx with h | h
    · exact Or.inl h
    · exact Or.inr (by simpa using h)

/-- A fold with a map-valued accumulator preserves any property of the keys
that every step preserves. -/
theorem foldl_keys_preserve {α K V : Type} [DecidableEq K] (P : K → Prop)
    (f : JSMap K V → α → JSMap K V)
    (hf : ∀ m a, (∀ k ∈ m.map Prod.fst, P k) → ∀ k ∈ (f m a).map Prod.fst, P k) :
    ∀ (l : List α) (m : JSMap K V), (∀ k ∈ m.map Prod.fst, P k) →
      ∀ k ∈ (l.foldl f m).map Prod.fst, P k
  | [], _, hm => hm
  | a :: rest, m, hm => by
    rw [List.foldl_cons]
    exact foldl_keys_preserve P f hf rest (f m a) (hf m a hm)

/-- C8 (amended): for every heatmap data list, bucket count at least 1 and
configuration, every bucket index present in the grouping is either the NaN
index (`none`, arising only from a NaN age ratio) or a number strictly less
than the bucket count. -/
theorem c8_bucket_lt (heatmapData : List HeatmapLineData) (buckets : Int)
    (config : HeatmapConfig) (hb : 1 ≤ buckets) :
    ∀ k ∈ (groupHeatmapByColor heatmapData buckets config).map Prod.fst,
      ∀ i, k = some i → i < buckets := by
  have hidx : ∀ (d : HeatmapLineData) (i : Int),
      d.ageNorm.map (fun q => min ⌊q * (buckets : ℚ)⌋ (buckets - 1)) = some i →
        i < buckets := by
    intro d i h
    rcases Option.map_eq_some'.mp h with ⟨q, _, rfl⟩
    exact lt_of_le_of_lt (min_le_right _ _) (by omega)
  unfold groupHeatmapByColor
  apply foldl_keys_preserve
  · intro m d hm
    simp only
    split
    · intro k hk i hki
      rcases keys_mapSet_subset k hk with h | h
      · split at h
        · exact hm k h i hki
        · rcases keys_mapSet_subset k h with h3 | h3
          · exact hm k h3 i hki
          · exact hidx d i (h3 ▸ hki)
      · exact hidx d i (h ▸ hki)
    · intro k hk i hki
      split at hk
      · exact hm k hk i hki
      · rcases keys_mapSet_subset k hk with h | h
        · exact hm k h i hki
        · exact hidx d i (h ▸ hki)
  · simp

/-- Raw blame text whose third committed block carries a malformed
`author-time` field (`parseInt` yields NaN), while lines 1 and 2 have the
timestamps 100 and 200. -/
def heatmapNanInput : String :=
  "aaaaaaaaaaaaaaaaaaaaaaaaaaaaaaaaaaaaaaaa 1 1\nauthor Alice\nauthor-time 100\n\tfoo\nbbbbbbbbbbbbbbbbbbbbbbbbbbbbbbbbbbbbbbbb 2 2\nauthor Bob\nauthor-time 200\n\tbar\ncccccccccccccccccccccccccccccccccccccccc 3 3\nauthor Carol\nauthor-time zz\n\tbaz\n"

unseal Rat.mul Rat.add Rat.sub Rat.inv Rat.ofScientific in
/-- Counterexample to C8 as stated: on the heatmap data computed from
`heatmapNanInput` (bucket count 20, the default), the produced bucket keys
are 0, 19 and the NaN key, and the NaN key is not less than 20 (`<` against
NaN is false) — so not every bucket index present is strictly below the
bucket count. -/
theorem c8_counterexample :
    ((groupHeatmapByColor
        (calculateHeatmap (parseBlameOutput heatmapNanInput) DEFAULT_HEATMAP_CONFIG)
        20 DEFAULT_HEATMAP_CONFIG).map Prod.fst) = [some 0, some 19, none] ∧
    ¬ (∀ k ∈ (groupHeatmapByColor
        (calculateHeatmap (parseBlameOutput heatmapNanInput) DEFAULT_HEATMAP_CONFIG)
        20 DEFAULT_HEATMAP_CONFIG).map Prod.fst, jsNumLt k 20 = true) := by
  constructor
  · decide
  · decide

unseal Rat.mul Rat.add Rat.sub Rat.inv Rat.ofScientific in
/-- Witness for C8 at concrete data: the numeric bucket key 19 is produced
by the pipeline for `heatmapNanInput` with the default bucket count 20, and
it is strictly below 20. -/
theorem c8_witness :
    some (19 : Int) ∈ (groupHeatmapByColor
        (calculateHeatmap (parseBlameOutput heatmapNanInput) DEFAULT_HEATMAP_CONFIG)
        20 DEFAULT_HEATMAP_CONFIG).map Prod.fst ∧ (19 : Int) < 20 :=
  ⟨by decide,
   c8_bucket_lt
    (calculateHeatmap (parseBlameOutput heatmapNanInput) DEFAULT_HEATMAP_CONFIG)
    20 DEFAULT_HEATMAP_CONFIG (by norm_num) (some 19) (by decide) 19 rfl⟩

/-! ### Cache lemmas -/

/-- Reading back the key just stored. -/
theorem mapGet_mapSet_self {K V : Type} [DecidableEq K] (m : JSMap K V) (k : K) (v : V) :
    mapGet (mapSet m k v) k = some v := by
  induction m with
  | nil => simp [mapSet, mapHas, mapGet]
  | cons kv rest ih =>
    by_cases hk : kv.1 = k
    · simp [mapSet, mapHas, mapGet, hk]
    · have : mapSet (kv :: rest) k v =
          (if mapHas rest k then kv :: mapSet rest k v else kv :: (mapSet rest k v)) := by
        unfold mapSet mapHas
        simp only [List.any_cons, decide_eq_true_eq, hk, decide_False, Bool.false_or]
        split
        · simp [hk]
        · simp
      rw [this]
      split <;> simpa [mapGet, hk] using ih

/-- `mapGet` misses exactly when no entry carries the key. -/
theorem mapGet_eq_none_iff {K V : Type} [DecidableEq K] {m : JSMap K V} {k : K} :
    mapGet m k = none ↔ ∀ kv ∈ m, kv.1 ≠ k := by
  unfold mapGet
  rw [Option.map_eq_none', List.find?_eq_none]
  simp

/-- Elements survive `mapDelete` only from the original map. -/
theorem mem_mapDelete {K V : Type} [DecidableEq K] {m : JSMap K V} {k : K}
    {kv : K × V} (h : kv ∈ mapDelete m k) : kv ∈ m :=
  List.mem_of_mem_filter h

/-- Deleting an absent key changes nothing. -/
theorem mapDelete_eq_self {K V : Type} [DecidableEq K] {m : JSMap K V} {k : K}
    (h : mapHas m k = false) : mapDelete m k = m := by
  unfold mapDelete
  apply List.filter_eq_self.mpr
  intro kv hkv
  have : kv.1 ≠ k := by
    intro hk
    have : mapHas m k = true := List.any_eq_true.mpr ⟨kv, hkv, by simp [hk]⟩
    simp [this] at h
  simp [this]

/-- Deleting a present key strictly shrinks the map. -/
theorem length_mapDelete_lt {K V : Type} [DecidableEq K] {m : JSMap K V} {k : K}
    (h : mapHas m k = true) : (mapDelete m k).length < m.length := by
  rcases List.any_eq_true.mp h with ⟨kv, hkv, hk⟩
  simp only [decide_eq_true_eq] at hk
  apply List.length_filter_lt_length_iff_exists.mpr
  exact ⟨kv, hkv, by simp [hk]⟩

/-- Deleting never shrinks below: plain bound. -/
theorem length_mapDelete_le {K V : Type} [DecidableEq K] (m : JSMap K V) (k : K) :
    (mapDelete m k).length ≤ m.length :=
  List.length_filter_le _ _

/-- With distinct keys, deleting a present key removes exactly one entry. -/
theorem length_mapDelete_nodup {K V : Type} [DecidableEq K] :
    ∀ {m : JSMap K V} {k : K}, (m.map Prod.fst).Nodup → mapHas m k = true →
      (mapDelete m k).length + 1 = m.length := by
  intro m
  induction m with
  | nil => intro k _ h; simp [mapHas] at h
  | cons kv rest ih =>
    intro k hnd hk
    have hnd2 : (kv.1 :: rest.map Prod.fst).Nodup := by simpa using hnd
    rcases List.nodup_cons.mp hnd2 with ⟨hnot, hndrest⟩
    by_cases hhead : kv.1 = k
    · have hrest : mapHas rest k = false := by
        rw [← Bool.not_eq_true]
        intro hr
        rcases List.any_eq_true.mp hr with ⟨kv2, hkv2, hk2⟩
        simp only [decide_eq_true_eq] at hk2
        refine hnot ?_
        rw [hhead, ← hk2]
        exact List.mem_map_of_mem Prod.fst hkv2
      unfold mapDelete
      simp only [List.filter_cons, hhead, decide_True, Bool.not_true, if_neg]
      have := mapDelete_eq_self hrest
      unfold mapDelete at this
      simp [this]
    · have hrest : mapHas rest k = true := by
        rcases List.any_eq_true.mp hk with ⟨kv2, hkv2, hk2⟩
        simp only [decide_eq_true_eq] at hk2
        rcases List.mem_cons.mp hkv2 with rfl | hm2
        · exact absurd hk2 hhead
        · exact List.any_eq_true.mpr ⟨kv2, hm2, by simp [hk2]⟩
      unfold mapDelete
      simp only [List.filter_cons]
      rw [if_pos (by simp [hhead])]
      have := ih hndrest hrest
      unfold mapDelete at this
      simpa using this

/-- `mapHas` is monotone under `mapDelete`. -/
theorem mapHas_mapDelete_false {K V : Type} [DecidableEq K] {m : JSMap K V} {j k : K}
    (h : mapHas m k = false) : mapHas (mapDelete m j) k = false := by
  rw [← Bool.not_eq_true]
  intro habs
  rcases List.any_eq_true.mp habs with ⟨kv, hkv, hk⟩
  have : mapHas m k = true := List.any_eq_true.mpr ⟨kv, mem_mapDelete hkv, hk⟩
  simp [this] at h

/-- Scan step on the `Infinity` seed: the first entry is always taken. -/
theorem oldestStep_none (kv : JSStr × BlameCacheEntry) : oldestStep none kv = some kv := rfl

/-- Scan step on a current best: replace only on a strictly older entry. -/
theorem oldestStep_some (b kv : JSStr × BlameCacheEntry) :
    oldestStep (some b) kv =
      if kv.2.cachedAt < b.2.cachedAt then some kv else some b := rfl

/-- The `oldestStep` fold yields an element of the list (or keeps the seed). -/
theorem foldl_oldestStep_mem :
    ∀ (m : List (JSStr × BlameCacheEntry)) (acc : Option (JSStr × BlameCacheEntry))
      (r : JSStr × BlameCacheEntry),
      m.foldl oldestStep acc = some r → r ∈ m ∨ acc = some r
  | [], acc, r => fun h => Or.inr h
  | kv :: rest, acc, r => by
    intro h
    rw [List.foldl_cons] at h
    rcases foldl_oldestStep_mem rest (oldestStep acc kv) r h with hmem | hacc
    · exact Or.inl (List.mem_cons_of_mem _ hmem)
    · rcases acc with _ | b
      · rw [oldestStep_none] at hacc
        obtain rfl : kv = r := by simpa using hacc
        exact Or.inl (List.mem_cons_self _ _)
      · rw [oldestStep_some] at hacc
        split at hacc
        · obtain rfl : kv = r := by simpa using hacc
          exact Or.inl (List.mem_cons_self _ _)
        · exact Or.inr hacc

/-- The `oldestStep` fold result is no younger than every scanned entry and
no younger than the seed. -/
theorem foldl_oldestStep_min :
    ∀ (m : List (JSStr × BlameCacheEntry)) (acc : Option (JSStr × BlameCacheEntry))
      (r : JSStr × BlameCacheEntry),
      m.foldl oldestStep acc = some r →
      (∀ x ∈ m, r.2.cachedAt ≤ x.2.cachedAt) ∧
        (∀ b, acc = some b → r.2.cachedAt ≤ b.2.cachedAt)
  | [], acc, r => by
    intro h
    refine ⟨by simp, ?_⟩
    intro b hb
    rw [List.foldl_nil] at h
    rw [h] at hb
    obtain rfl : r = b := by simpa using hb
    exact le_refl _
  | kv :: rest, acc, r => by
    intro h
    rw [List.foldl_cons] at h
    obtain ⟨hrest, hstep⟩ := foldl_oldestStep_min rest (oldestStep acc kv) r h
    have hkv : r.2.cachedAt ≤ kv.2.cachedAt := by
      rcases acc with _ | b
      · exact hstep kv (oldestStep_none kv)
      · by_cases hlt : kv.2.cachedAt < b.2.cachedAt
        · exact hstep kv (by rw [oldestStep_some, if_pos hlt])
        · exact le_trans (hstep b (by rw [oldestStep_some, if_neg hlt])) (not_lt.mp hlt)
    refine ⟨?_, ?_⟩
    · intro x hx
      rcases List.mem_cons.mp hx with rfl | hx
      · exact hkv
      · exact hrest x hx
    · intro b hb
      subst hb
      by_cases hlt : kv.2.cachedAt < b.2.cachedAt
      · exact le_trans (hstep kv (by rw [oldestStep_some, if_pos hlt])) (le_of_lt hlt)
      · exact hstep b (by rw [oldestStep_some, if_neg hlt])

/-- A seed survives the scan when nothing scanned is strictly older. -/
theorem foldl_oldestStep_stay :
    ∀ (m : List (JSStr × BlameCacheEntry)) (e : JSStr × BlameCacheEntry),
      (∀ x ∈ m, e.2.cachedAt ≤ x.2.cachedAt) → m.foldl oldestStep (some e) = some e
  | [], _, _ => rfl
  | kv :: rest, e, h => by
    rw [List.foldl_cons, oldestStep_some,
      if_neg (not_lt.mpr (h kv (List.mem_cons_self _ _)))]
    exact foldl_oldestStep_stay rest e (fun x hx => h x (List.mem_cons_of_mem _ hx))

/-- The scan succeeds on a non-empty map. -/
theorem findOldest_isSome {m : JSMap JSStr BlameCacheEntry} (h : m ≠ []) :
    (findOldest m).isSome = true := by
  have haux : ∀ (l : List (JSStr × BlameCacheEntry)) (acc : Option (JSStr × BlameCacheEntry)),
      acc.isSome = true → (l.foldl oldestStep acc).isSome = true := by
    intro l
    induction l with
    | nil => exact fun _ hacc => hacc
    | cons kv rest ih =>
      intro acc hacc
      rw [List.foldl_cons]
      apply ih
      rcases acc with _ | b
      · simp at hacc
      · rw [oldestStep_some]
        split <;> rfl
  rcases m with _ | ⟨kv, rest⟩
  · exact absurd rfl h
  · unfold findOldest
    rw [List.foldl_cons, oldestStep_none]
    exact haux rest (some kv) rfl

/-- Unfolding equation for `BlameCache.get` on a missing key. -/
theorem get_eq_none (c : BlameCache) (filePath currentHeadCommit : JSStr)
    (hm : mapGet c.cache (getCacheKey filePath) = none) :
    BlameCache.get c filePath currentHeadCommit =
      (none, { c with misses := c.misses + 1 }) := by
  simp only [BlameCache.get, hm]

/-- Unfolding equation for `BlameCache.get` on a present key. -/
theorem get_eq_entry (c : BlameCache) (filePath currentHeadCommit : JSStr)
    (entry : BlameCacheEntry)
    (hm : mapGet c.cache (getCacheKey filePath) = some entry) :
    BlameCache.get c filePath currentHeadCommit =
      (if entry.headCommit = currentHeadCommit then
        (some entry.blameResult, { c with hits := c.hits + 1 })
      else (none, { c with misses := c.misses + 1 })) := by
  simp only [BlameCache.get, hm]

/-- `BlameCache.get` never modifies the stored map (hits and misses only
touch the counters). -/
theorem get_preserves_cache (c : BlameCache) (filePath currentHeadCommit : JSStr) :
    (BlameCache.get c filePath currentHeadCommit).2.cache = c.cache := by
  rcases hm : mapGet c.cache (getCacheKey filePath) with _ | entry
  · rw [get_eq_none c filePath currentHeadCommit hm]
  · rw [get_eq_entry c filePath currentHeadCommit entry hm]
    split <;> rfl

/-- C3: `get` returns the stored result exactly when the entry's stored
revision equals the current revision; on any mismatch it returns none while
leaving the stored map untouched; and after `set(f, r1, R1); set(f, r2, R2)`
with `r1 ≠ r2`, `get(f, r1)` misses while `get(f, r2)` returns `R2`. -/
theorem c3_cache_revision_exact (c : BlameCache) (filePath currentHeadCommit : JSStr) :
    ((BlameCache.get c filePath currentHeadCommit).2.cache = c.cache) ∧
    (∀ r : BlameParseResult,
      (BlameCache.get c filePath currentHeadCommit).1 = some r ↔
        ∃ e, mapGet c.cache (getCacheKey filePath) = some e ∧
          e.headCommit = currentHeadCommit ∧ e.blameResult = r) ∧
    (∀ (c0 : BlameCache) (f r1 r2 : JSStr) (R1 R2 : BlameParseResult) (t1 t2 : Nat),
      r1 ≠ r2 →
        (((c0.set f r1 R1 t1).set f r2 R2 t2).get f r1).1 = none ∧
          (((c0.set f r1 R1 t1).set f r2 R2 t2).get f r2).1 = some R2) := by
  refine ⟨get_preserves_cache c filePath currentHeadCommit, ?_, ?_⟩
  · intro r
    rcases hm : mapGet c.cache (getCacheKey filePath) with _ | entry
    · rw [get_eq_none c filePath currentHeadCommit hm]
      simp
    · rw [get_eq_entry c filePath currentHeadCommit entry hm]
      split
      · rename_i hhead
        constructor
        · intro hr
          exact ⟨entry, rfl, hhead, by simpa using hr⟩
        · rintro ⟨e, he, _, hr⟩
          obtain rfl : entry = e := by simpa using he
          simpa using hr
      · rename_i hhead
        constructor
        · intro habs
          simp at habs
        · rintro ⟨e, he, hh, _⟩
          obtain rfl : entry = e := by simpa using he
          exact absurd hh hhead
  · intro c0 f r1 r2 R1 R2 t1 t2 hne
    have hget : mapGet ((c0.set f r1 R1 t1).set f r2 R2 t2).cache (getCacheKey f) =
        some { blameResult := R2, headCommit := r2, cachedAt := t2, filePath := f } := by
      simp only [BlameCache.set]
      exact mapGet_mapSet_self _ _ _
    constructor
    · rw [get_eq_entry _ f r1 _ hget]
      rw [if_neg (fun hh : r2 = r1 => hne hh.symm)]
    · rw [get_eq_entry _ f r2 _ hget]
      rw [if_pos rfl]

/-- The empty parse result, used as a concrete stored value. -/
def emptyParseResult : BlameParseResult :=
  { success := true, lines := [], error := none, lineCount := 0 }

/-- Witness for C3 at a concrete cache, file and two revisions. -/
theorem c3_witness :
    ((((emptyBlameCache 50).set (String.toList "a.ts") (String.toList "r1")
        emptyParseResult 0).set (String.toList "a.ts") (String.toList "r2")
        emptyParseResult 1).get (String.toList "a.ts") (String.toList "r1")).1 = none ∧
    ((((emptyBlameCache 50).set (String.toList "a.ts") (String.toList "r1")
        emptyParseResult 0).set (String.toList "a.ts") (String.toList "r2")
        emptyParseResult 1).get (String.toList "a.ts") (String.toList "r2")).1 =
      some emptyParseResult :=
  (c3_cache_revision_exact (emptyBlameCache 50) [] []).2.2 (emptyBlameCache 50)
    (String.toList "a.ts") (String.toList "r1") (String.toList "r2")
    emptyParseResult emptyParseResult 0 1 (by decide)

/-- Storing under an absent key appends the binding. -/
theorem mapSet_new {K V : Type} [DecidableEq K] {m : JSMap K V} {k : K} (v : V)
    (h : mapHas m k = false) : mapSet m k v = m ++ [(k, v)] := by
  unfold mapSet
  rw [h]
  simp

/-- Length after storing under an absent key. -/
theorem length_mapSet_new {K V : Type} [DecidableEq K] {m : JSMap K V} {k : K} (v : V)
    (h : mapHas m k = false) : (mapSet m k v).length = m.length + 1 := by
  rw [mapSet_new v h]
  simp

/-- Length after overwriting a present key. -/
theorem length_mapSet_overwrite {K V : Type} [DecidableEq K] {m : JSMap K V} {k : K}
    (v : V) (h : mapHas m k = true) : (mapSet m k v).length = m.length := by
  unfold mapSet
  rw [h]
  simp

/-- Membership gives `mapHas`. -/
theorem mapHas_of_mem {K V : Type} [DecidableEq K] {m : JSMap K V} {kv : K × V}
    (h : kv ∈ m) : mapHas m kv.1 = true :=
  List.any_eq_true.mpr ⟨kv, h, by simp⟩

/-- Path normalization preserves length, so only the empty path normalizes
to the empty key. -/
theorem getCacheKey_ne_nil {filePath : JSStr} (h : filePath ≠ []) :
    getCacheKey filePath ≠ [] := by
  unfold getCacheKey
  simp [h]

/-- A `set` of a genuinely new key into a full cache with distinct non-empty
keys evicts exactly the oldest-timestamped entry and inserts the new one,
keeping the entry count at capacity. -/
theorem set_evicts_oldest (c : BlameCache) (filePath headCommit : JSStr)
    (blameResult : BlameParseResult) (now : Nat)
    (hkeys : ∀ kv ∈ c.cache, kv.1 ≠ ([] : JSStr))
    (hnodup : (c.cache.map Prod.fst).Nodup)
    (hnew : mapHas c.cache (getCacheKey filePath) = false)
    (hfull : c.cache.length = c.maxEntries)
    (hmax : 1 ≤ c.maxEntries) :
    ∃ kv ∈ c.cache,
      (∀ x ∈ c.cache, kv.2.cachedAt ≤ x.2.cachedAt) ∧
      (BlameCache.set c filePath headCommit blameResult now).cache =
        mapSet (mapDelete c.cache kv.1) (getCacheKey filePath)
          { blameResult := blameResult, headCommit := headCommit,
            cachedAt := now, filePath := filePath } ∧
      (BlameCache.set c filePath headCommit blameResult now).cache.length = c.maxEntries := by
  have hne : c.cache ≠ [] := by
    intro h0
    rw [h0] at hfull
    simp at hfull
    omega
  obtain ⟨kv, hkv⟩ := Option.isSome_iff_exists.mp (findOldest_isSome hne)
  have hmem : kv ∈ c.cache := by
    rcases foldl_oldestStep_mem c.cache none kv hkv with h | h
    · exact h
    · simp at h
  have hmin : ∀ x ∈ c.cache, kv.2.cachedAt ≤ x.2.cachedAt :=
    (foldl_oldestStep_min c.cache none kv hkv).1
  have hkne : kv.1 ≠ [] := hkeys kv hmem
  have hevict : evictOldest c.cache = mapDelete c.cache kv.1 := by
    unfold evictOldest
    rw [hkv]
    simp [hkne]
  have hcond : (decide (c.maxEntries ≤ c.cache.length) &&
      !mapHas c.cache (getCacheKey filePath)) = true := by
    simp [hnew, hfull]
  have hset : (BlameCache.set c filePath headCommit blameResult now).cache =
      mapSet (mapDelete c.cache kv.1) (getCacheKey filePath)
        { blameResult := blameResult, headCommit := headCommit,
          cachedAt := now, filePath := filePath } := by
    simp only [BlameCache.set, hcond, if_true, hevict]
  refine ⟨kv, hmem, hmin, hset, ?_⟩
  rw [hset, length_mapSet_new _ (mapHas_mapDelete_false hnew)]
  have hdel := length_mapDelete_nodup hnodup (mapHas_of_mem hmem)
  omega

/-- One `set` call with all its arguments (the `now` field is the
`Date.now()` reading at the call). -/
structure SetCall where
  filePath : JSStr
  headCommit : JSStr
  blameResult : BlameParseResult
  now : Nat
deriving DecidableEq, Repr

/-- Perform a sequence of `set` calls from left to right. -/
def setAll (c : BlameCache) (calls : List SetCall) : BlameCache :=
  calls.foldl (fun c sc => c.set sc.filePath sc.headCommit sc.blameResult sc.now) c

/-- The cache binding a `set` call produces. -/
def mkEntry (sc : SetCall) : JSStr × BlameCacheEntry :=
  (getCacheKey sc.filePath,
   { blameResult := sc.blameResult, headCommit := sc.headCommit,
     cachedAt := sc.now, filePath := sc.filePath })

/-- A single `set` of a fresh key below capacity appends its binding. -/
theorem set_fresh_below (c : BlameCache) (sc : SetCall)
    (hfresh : mapHas c.cache (getCacheKey sc.filePath) = false)
    (hroom : c.cache.length < c.maxEntries) :
    (c.set sc.filePath sc.headCommit sc.blameResult sc.now).cache =
      c.cache ++ [mkEntry sc] := by
  have hcond : (decide (c.maxEntries ≤ c.cache.length) &&
      !mapHas c.cache (getCacheKey sc.filePath)) = false := by
    have : ¬ (c.maxEntries ≤ c.cache.length) := by omega
    simp [this]
  simp only [BlameCache.set, hcond, Bool.false_eq_true, if_false]
  exact mapSet_new _ hfresh

/-- Filling an empty-enough cache with fresh, distinct keys appends the
bindings in call order. -/
theorem setAll_fresh :
    ∀ (calls : List SetCall) (c : BlameCache),
      (∀ sc ∈ calls, mapHas c.cache (getCacheKey sc.filePath) = false) →
      ((calls.map (fun sc => getCacheKey sc.filePath)).Nodup) →
      c.cache.length + calls.length ≤ c.maxEntries →
      (setAll c calls).cache = c.cache ++ calls.map mkEntry ∧
        (setAll c calls).maxEntries = c.maxEntries
  | [], c, _, _, _ => ⟨by simp [setAll], rfl⟩
  | sc :: rest, c, hfresh, hnodup, hlen => by
    have hlen1 : c.cache.length < c.maxEntries := by
      simp only [List.length_cons] at hlen
      omega
    have hone := set_fresh_below c sc (hfresh sc (List.mem_cons_self _ _)) hlen1
    have hnd0 : (getCacheKey sc.filePath ::
        rest.map (fun x => getCacheKey x.filePath)).Nodup := by
      simpa using hnodup
    have hnd2 := List.nodup_cons.mp hnd0
    have ih := setAll_fresh rest (c.set sc.filePath sc.headCommit sc.blameResult sc.now)
      (by
        intro sc2 hsc2
        rw [hone]
        unfold mapHas at hfresh ⊢
        rw [List.any_append]
        have h1 := hfresh sc2 (List.mem_cons_of_mem _ hsc2)
        unfold mapHas at h1
        rw [h1]
        simp only [Bool.false_or, List.any_cons, List.any_nil, Bool.or_false]
        simp only [mkEntry]
        rw [decide_eq_false_iff_not]
        intro habs
        refine hnd2.1 ?_
        rw [habs]
        exact List.mem_map_of_mem _ hsc2)
      hnd2.2
      (by
        rw [hone]
        have hm2 : (c.set sc.filePath sc.headCommit sc.blameResult sc.now).maxEntries
            = c.maxEntries := rfl
        rw [hm2]
        simp only [List.length_append, List.length_cons, List.length_nil]
        simp only [List.length_cons] at hlen
        omega)
    rcases ih with ⟨ihc, ihm⟩
    constructor
    · show (setAll (c.set sc.filePath sc.headCommit sc.blameResult sc.now) rest).cache = _
      rw [ihc, hone]
      simp
    · show (setAll (c.set sc.filePath sc.headCommit sc.blameResult sc.now) rest).maxEntries = _
      rw [ihm]
      rfl

/-- Inserting capacity + 1 distinct, non-empty file keys (with
non-decreasing `Date.now()` readings) into an empty cache leaves exactly
capacity entries and evicts the first-inserted key. -/
theorem setAll_capacity_scenario (maxEntries : Nat) (calls : List SetCall)
    (hmax : 1 ≤ maxEntries)
    (hlen : calls.length = maxEntries + 1)
    (hkeys : ∀ sc ∈ calls, sc.filePath ≠ ([] : JSStr))
    (hnodup : (calls.map (fun sc => getCacheKey sc.filePath)).Nodup)
    (htimes : (calls.map SetCall.now).Sorted (· ≤ ·)) :
    (setAll (emptyBlameCache maxEntries) calls).cache.length = maxEntries ∧
    ∀ sc0, calls.head? = some sc0 →
      mapGet (setAll (emptyBlameCache maxEntries) calls).cache
        (getCacheKey sc0.filePath) = none := by
  have hne : calls ≠ [] := by
    intro h
    rw [h] at hlen
    simp at hlen
  obtain ⟨body, lastc, rfl⟩ : ∃ body lastc, calls = body ++ [lastc] :=
    ⟨calls.dropLast, calls.getLast hne, (List.dropLast_append_getLast hne).symm⟩
  have hblen : body.length = maxEntries := by
    rw [List.length_append] at hlen
    simpa using hlen
  rcases body with _ | ⟨b0, brest⟩
  · rw [List.length_nil] at hblen
    omega
  simp only [List.length_cons] at hblen
  -- key bookkeeping
  have hnodup2 : ((getCacheKey b0.filePath :: brest.map (fun x => getCacheKey x.filePath)) ++
      [getCacheKey lastc.filePath]).Nodup := by simpa using hnodup
  rcases List.nodup_append.mp hnodup2 with ⟨hbody_nodup, _, hdisj⟩
  have h0notrest : getCacheKey b0.filePath ∉
      brest.map (fun x => getCacheKey x.filePath) :=
    (List.nodup_cons.mp hbody_nodup).1
  have hlastnot : ∀ sc ∈ b0 :: brest,
      getCacheKey sc.filePath ≠ getCacheKey lastc.filePath := by
    intro sc hsc habs
    have hmem : getCacheKey sc.filePath ∈
        getCacheKey b0.filePath :: brest.map (fun x => getCacheKey x.filePath) := by
      rcases List.mem_cons.mp hsc with rfl | hsc
      · exact List.mem_cons_self _ _
      · exact List.mem_cons_of_mem _ (List.mem_map_of_mem _ hsc)
    exact hdisj hmem (by simp [habs])
  -- fill the first maxEntries inserts
  have hfill := setAll_fresh (b0 :: brest) (emptyBlameCache maxEntries)
    (fun _ _ => rfl) hbody_nodup
    (by simp only [emptyBlameCache, List.length_nil, List.length_cons, Nat.zero_add]
        omega)
  have hc1 : (setAll (emptyBlameCache maxEntries) (b0 :: brest)).cache =
      mkEntry b0 :: brest.map mkEntry := by
    rw [hfill.1]
    simp [emptyBlameCache]
  have hm1 : (setAll (emptyBlameCache maxEntries) (b0 :: brest)).maxEntries = maxEntries :=
    hfill.2
  -- the last insert
  have hsplit : setAll (emptyBlameCache maxEntries) ((b0 :: brest) ++ [lastc]) =
      BlameCache.set (setAll (emptyBlameCache maxEntries) (b0 :: brest))
        lastc.filePath lastc.headCommit lastc.blameResult lastc.now := by
    unfold setAll
    rw [List.foldl_append]
    rfl
  -- head time is minimal
  have htimes2 : (b0.now :: (brest.map SetCall.now ++ [lastc.now])).Sorted (· ≤ ·) := by
    simpa using htimes
  have hb0min : ∀ y ∈ brest.map SetCall.now ++ [lastc.now], b0.now ≤ y :=
    (List.sorted_cons.mp htimes2).1
  -- the oldest entry of the filled cache is the first insert
  have hold : findOldest (mkEntry b0 :: brest.map mkEntry) = some (mkEntry b0) := by
    unfold findOldest
    rw [List.foldl_cons, oldestStep_none]
    apply foldl_oldestStep_stay
    intro x hx
    rcases List.mem_map.mp hx with ⟨bi, hbi, rfl⟩
    show b0.now ≤ bi.now
    exact hb0min bi.now (List.mem_append_left _ (List.mem_map_of_mem _ hbi))
  have hb0ne : getCacheKey b0.filePath ≠ [] :=
    getCacheKey_ne_nil (hkeys b0 (by simp))
  have hnorest : mapHas (brest.map mkEntry) (getCacheKey b0.filePath) = false := by
    rw [← Bool.not_eq_true]
    intro habs
    rcases List.any_eq_true.mp habs with ⟨kv, hkv, hk⟩
    rcases List.mem_map.mp hkv with ⟨bi, hbi, rfl⟩
    simp only [mkEntry, decide_eq_true_eq] at hk
    refine h0notrest ?_
    rw [← hk]
    exact List.mem_map_of_mem _ hbi
  have hevict : evictOldest (mkEntry b0 :: brest.map mkEntry) = brest.map mkEntry := by
    unfold evictOldest
    rw [hold]
    show (if (mkEntry b0).1 = [] then mkEntry b0 :: brest.map mkEntry
      else mapDelete (mkEntry b0 :: brest.map mkEntry) (mkEntry b0).1) = brest.map mkEntry
    rw [if_neg (show ¬((mkEntry b0).1 = []) from hb0ne)]
    unfold mapDelete
    rw [List.filter_cons, if_neg (by simp)]
    have h2 := mapDelete_eq_self hnorest
    unfold mapDelete at h2
    exact h2
  have hlastfresh : mapHas (mkEntry b0 :: brest.map mkEntry)
      (getCacheKey lastc.filePath) = false := by
    rw [← Bool.not_eq_true]
    intro habs
    rcases List.any_eq_true.mp habs with ⟨kv, hkv, hk⟩
    rcases List.mem_cons.mp hkv with rfl | hkv
    · simp only [mkEntry, decide_eq_true_eq] at hk
      exact hlastnot b0 (List.mem_cons_self _ _) hk
    · rcases List.mem_map.mp hkv with ⟨bi, hbi, rfl⟩
      simp only [mkEntry, decide_eq_true_eq] at hk
      exact hlastnot bi (List.mem_cons_of_mem _ hbi) hk
  have hlastfresh2 : mapHas (brest.map mkEntry) (getCacheKey lastc.filePath) = false := by
    rw [← Bool.not_eq_true]
    intro habs
    rcases List.any_eq_true.mp habs with ⟨kv, hkv, hk⟩
    have : mapHas (mkEntry b0 :: brest.map mkEntry)
        (getCacheKey lastc.filePath) = true :=
      List.any_eq_true.mpr ⟨kv, List.mem_cons_of_mem _ hkv, hk⟩
    simp [this] at hlastfresh
  have hfinal : (setAll (emptyBlameCache maxEntries) ((b0 :: brest) ++ [lastc])).cache =
      brest.map mkEntry ++ [mkEntry lastc] := by
    rw [hsplit]
    have hcond : (decide ((setAll (emptyBlameCache maxEntries) (b0 :: brest)).maxEntries ≤
        (setAll (emptyBlameCache maxEntries) (b0 :: brest)).cache.length) &&
        !mapHas (setAll (emptyBlameCache maxEntries) (b0 :: brest)).cache
          (getCacheKey lastc.filePath)) = true := by
      rw [hc1, hm1, hlastfresh]
      simp only [Bool.not_false, Bool.and_true, decide_eq_true_eq, List.length_cons,
        List.length_map]
      omega
    simp only [BlameCache.set, hcond, if_true]
    rw [hc1, hevict]
    exact mapSet_new _ hlastfresh2
  refine ⟨?_, ?_⟩
  · rw [hfinal]
    simp only [List.length_append, List.length_map, List.length_cons, List.length_nil]
    omega
  · intro sc0 hsc0
    obtain rfl : b0 = sc0 := by simpa using hsc0
    rw [hfinal]
    apply mapGet_eq_none_iff.mpr
    intro kv hkv
    rcases List.mem_append.mp hkv with hkv | hkv
    · rcases List.mem_map.mp hkv with ⟨bi, hbi, rfl⟩
      simp only [mkEntry]
      intro habs
      refine h0notrest ?_
      rw [← habs]
      exact List.mem_map_of_mem _ hbi
    · obtain rfl : kv = mkEntry lastc := by simpa using hkv
      simp only [mkEntry]
      intro habs
      exact hlastnot b0 (List.mem_cons_self _ _) habs.symm

/-- C4 (amended): provided every stored file key is non-empty (the
normalized key of any non-empty path), a `set` of a new key at capacity
evicts exactly one entry — one with the oldest insertion timestamp — before
inserting; hence inserting capacity + 1 distinct non-empty file keys into an
empty cache (with non-decreasing clock readings) leaves exactly capacity
entries, with the first-inserted key absent. -/
theorem c4_fifo_eviction :
    (∀ (c : BlameCache) (filePath headCommit : JSStr)
        (blameResult : BlameParseResult) (now : Nat),
      (∀ kv ∈ c.cache, kv.1 ≠ ([] : JSStr)) →
      (c.cache.map Prod.fst).Nodup →
      mapHas c.cache (getCacheKey filePath) = false →
      c.cache.length = c.maxEntries →
      1 ≤ c.maxEntries →
      ∃ kv ∈ c.cache,
        (∀ x ∈ c.cache, kv.2.cachedAt ≤ x.2.cachedAt) ∧
        (BlameCache.set c filePath headCommit blameResult now).cache =
          mapSet (mapDelete c.cache kv.1) (getCacheKey filePath)
            { blameResult := blameResult, headCommit := headCommit,
              cachedAt := now, filePath := filePath } ∧
        (BlameCache.set c filePath headCommit blameResult now).cache.length
          = c.maxEntries) ∧
    (∀ (maxEntries : Nat) (calls : List SetCall),
      1 ≤ maxEntries →
      calls.length = maxEntries + 1 →
      (∀ sc ∈ calls, sc.filePath ≠ ([] : JSStr)) →
      ((calls.map (fun sc => getCacheKey sc.filePath)).Nodup) →
      ((calls.map SetCall.now).Sorted (· ≤ ·)) →
      (setAll (emptyBlameCache maxEntries) calls).cache.length = maxEntries ∧
      ∀ sc0, calls.head? = some sc0 →
        mapGet (setAll (emptyBlameCache maxEntries) calls).cache
          (getCacheKey sc0.filePath) = none) :=
  ⟨set_evicts_oldest, setAll_capacity_scenario⟩

/-- The two-call insert sequence whose first file path is empty. -/
def c4BadCalls : List SetCall :=
  [{ filePath := [], headCommit := String.toList "h",
     blameResult := emptyParseResult, now := 0 },
   { filePath := String.toList "a", headCommit := String.toList "h",
     blameResult := emptyParseResult, now := 1 }]

/-- Counterexample to C4 as stated: inserting capacity + 1 = 2 distinct
file keys into an empty capacity-1 cache, with the empty path first, leaves
2 entries (not 1) and the first-inserted key still present — the JS
truthiness test `if (oldestKey)` in `evictOldest` skips eviction for the
empty-string key. -/
theorem c4_counterexample :
    (setAll (emptyBlameCache 1) c4BadCalls).cache.length = 2 ∧
    (mapGet (setAll (emptyBlameCache 1) c4BadCalls).cache
      (getCacheKey [])).isSome = true := by
  constructor
  · decide
  · decide

/-- The two-call insert sequence with non-empty file paths. -/
def c4GoodCalls : List SetCall :=
  [{ filePath := String.toList "a", headCommit := String.toList "h",
     blameResult := emptyParseResult, now := 0 },
   { filePath := String.toList "b", headCommit := String.toList "h",
     blameResult := emptyParseResult, now := 1 }]

/-- A full capacity-1 cache with the single non-empty key "a". -/
def c4FullCache : BlameCache :=
  { cache := [(String.toList "a",
      { blameResult := emptyParseResult, headCommit := String.toList "h",
        cachedAt := 5, filePath := String.toList "a" })],
    hits := 0, misses := 0, maxEntries := 1 }

/-- Witness for C4 at a concrete full cache and a concrete capacity + 1
insert sequence. -/
theorem c4_witness :
    (∃ kv ∈ c4FullCache.cache,
      (∀ x ∈ c4FullCache.cache, kv.2.cachedAt ≤ x.2.cachedAt) ∧
      (BlameCache.set c4FullCache (String.toList "b") (String.toList "h")
        emptyParseResult 9).cache =
        mapSet (mapDelete c4FullCache.cache kv.1) (getCacheKey (String.toList "b"))
          { blameResult := emptyParseResult, headCommit := String.toList "h",
            cachedAt := 9, filePath := String.toList "b" } ∧
      (BlameCache.set c4FullCache (String.toList "b") (String.toList "h")
        emptyParseResult 9).cache.length = c4FullCache.maxEntries) ∧
    ((setAll (emptyBlameCache 1) c4GoodCalls).cache.length = 1 ∧
      ∀ sc0, c4GoodCalls.head? = some sc0 →
        mapGet (setAll (emptyBlameCache 1) c4GoodCalls).cache
          (getCacheKey sc0.filePath) = none) :=
  ⟨c4_fifo_eviction.1 c4FullCache (String.toList "b") (String.toList "h")
      emptyParseResult 9 (by decide) (by decide) (by decide) (by decide) (by decide),
   c4_fifo_eviction.2 1 c4GoodCalls (by decide) (by decide) (by decide)
      (by decide) (by decide)⟩

/-- Eviction only removes entries. -/
theorem mem_evictOldest {m : JSMap JSStr BlameCacheEntry} {kv : JSStr × BlameCacheEntry}
    (h : kv ∈ evictOldest m) : kv ∈ m := by
  unfold evictOldest at h
  rcases hf : findOldest m with _ | kv2 <;> rw [hf] at h
  · exact h
  · change kv ∈ (if kv2.1 = [] then m else mapDelete m kv2.1) at h
    split at h
    · exact h
    · exact mem_mapDelete h

/-- Both state fields a `get` leaves alone. -/
theorem get_preserves_fields (c : BlameCache) (filePath currentHeadCommit : JSStr) :
    (BlameCache.get c filePath currentHeadCommit).2.cache = c.cache ∧
      (BlameCache.get c filePath currentHeadCommit).2.maxEntries = c.maxEntries := by
  rcases hm : mapGet c.cache (getCacheKey filePath) with _ | e
  · rw [get_eq_none c filePath currentHeadCommit hm]
    exact ⟨rfl, rfl⟩
  · rw [get_eq_entry c filePath currentHeadCommit e hm]
    split <;> exact ⟨rfl, rfl⟩

/-- The bulk delete in `invalidateForHeadChange` only removes entries. -/
theorem mem_foldl_mapDelete {kv : JSStr × BlameCacheEntry} :
    ∀ (ks : List JSStr) (m : JSMap JSStr BlameCacheEntry),
      kv ∈ ks.foldl (fun m k => mapDelete m k) m → kv ∈ m
  | [], _, h => h
  | k :: rest, m, h => mem_mapDelete (mem_foldl_mapDelete rest (mapDelete m k) h)

/-- The bulk delete never grows the map. -/
theorem length_foldl_mapDelete :
    ∀ (ks : List JSStr) (m : JSMap JSStr BlameCacheEntry),
      (ks.foldl (fun m k => mapDelete m k) m).length ≤ m.length
  | [], _ => le_refl _
  | k :: rest, m =>
    le_trans (length_foldl_mapDelete rest (mapDelete m k)) (length_mapDelete_le m k)

/-- The per-operation side condition of the amended C9: `set` calls carry a
non-empty file path (the other operations are unrestricted). -/
def cacheOpPathOk : CacheOp → Prop
  | CacheOp.set filePath _ _ _ => filePath ≠ []
  | _ => True

/-- The inductive state invariant behind the amended C9. -/
def CacheInv (maxEntries : Nat) (c : BlameCache) : Prop :=
  c.maxEntries = maxEntries ∧ (∀ kv ∈ c.cache, kv.1 ≠ ([] : JSStr)) ∧
    c.cache.length ≤ maxEntries

/-- Every cache operation with a non-empty path preserves the invariant. -/
theorem applyCacheOp_inv (maxEntries : Nat) (hmax : 1 ≤ maxEntries)
    (c : BlameCache) (op : CacheOp) (hInv : CacheInv maxEntries c)
    (hop : cacheOpPathOk op) : CacheInv maxEntries (applyCacheOp c op) := by
  obtain ⟨hme, hkeys, hlen⟩ := hInv
  cases op with
  | get fp head =>
    obtain ⟨hc2, hm2⟩ := get_preserves_fields c fp head
    exact ⟨hm2.trans hme, hc2 ▸ hkeys, hc2 ▸ hlen⟩
  | set fp head r now =>
    have hfpne : fp ≠ [] := hop
    refine ⟨hme, ?_, ?_⟩
    · intro kv hkv
      simp only [applyCacheOp, BlameCache.set] at hkv
      rcases mem_mapSet hkv with rfl | hold2
      · exact getCacheKey_ne_nil hfpne
      · have hmem : kv ∈ c.cache := by
          split at hold2
          · exact mem_evictOldest hold2
          · exact hold2
        exact hkeys kv hmem
    · show (BlameCache.set c fp head r now).cache.length ≤ maxEntries
      simp only [BlameCache.set]
      by_cases hhas : mapHas c.cache (getCacheKey fp) = true
      · have hcond : (decide (c.maxEntries ≤ c.cache.length) &&
            !mapHas c.cache (getCacheKey fp)) = false := by simp [hhas]
        simp only [hcond, Bool.false_eq_true, if_false]
        rw [length_mapSet_overwrite _ hhas]
        exact hlen
      · have hhasf : mapHas c.cache (getCacheKey fp) = false :=
          Bool.eq_false_iff.mpr hhas
        by_cases hfull : c.maxEntries ≤ c.cache.length
        · have hcond : (decide (c.maxEntries ≤ c.cache.length) &&
              !mapHas c.cache (getCacheKey fp)) = true := by simp [hhasf, hfull]
          simp only [hcond, if_true]
          have hne2 : c.cache ≠ [] := by
            intro h0
            rw [h0] at hfull
            simp only [List.length_nil, Nat.le_zero] at hfull
            omega
          obtain ⟨kv2, hkv2⟩ := Option.isSome_iff_exists.mp (findOldest_isSome hne2)
          have hmem2 : kv2 ∈ c.cache := by
            rcases foldl_oldestStep_mem c.cache none kv2 hkv2 with h | h
            · exact h
            · simp at h
          have hevict : evictOldest c.cache = mapDelete c.cache kv2.1 := by
            unfold evictOldest
            rw [hkv2]
            simp [hkeys kv2 hmem2]
          rw [hevict, length_mapSet_new _ (mapHas_mapDelete_false hhasf)]
          have hlt := length_mapDelete_lt (mapHas_of_mem hmem2)
          omega
        · have hcond : (decide (c.maxEntries ≤ c.cache.length) &&
              !mapHas c.cache (getCacheKey fp)) = false := by simp [hfull]
          simp only [hcond, Bool.false_eq_true, if_false]
          rw [length_mapSet_new _ hhasf]
          omega
  | delete fp =>
    refine ⟨hme, ?_, ?_⟩
    · intro kv hkv
      exact hkeys kv (mem_mapDelete hkv)
    · exact le_trans (length_mapDelete_le _ _) hlen
  | invalidateForHeadChange head =>
    refine ⟨hme, ?_, ?_⟩
    · intro kv hkv
      exact hkeys kv (mem_foldl_mapDelete _ _ hkv)
    · exact le_trans (length_foldl_mapDelete _ _) hlen
  | clear =>
    exact ⟨hme, by simp [applyCacheOp, BlameCache.clear], by
      simp only [applyCacheOp, BlameCache.clear, List.length_nil]
      omega⟩

/-- C9 (amended): starting from an empty cache with capacity at least 1,
after any finite sequence of `get`, `set`, `delete`,
`invalidateForHeadChange` and `clear` operations in which every `set` is
given a non-empty file path, the number of stored entries never exceeds the
capacity. -/
theorem c9_capacity_invariant (maxEntries : Nat) (ops : List CacheOp)
    (hmax : 1 ≤ maxEntries) (hops : ∀ op ∈ ops, cacheOpPathOk op) :
    (applyCacheOps (emptyBlameCache maxEntries) ops).cache.length ≤ maxEntries := by
  suffices h : ∀ (ops2 : List CacheOp) (c : BlameCache), CacheInv maxEntries c →
      (∀ op ∈ ops2, cacheOpPathOk op) → CacheInv maxEntries (applyCacheOps c ops2) by
    exact (h ops (emptyBlameCache maxEntries) ⟨rfl, by simp [emptyBlameCache], by
      simp [emptyBlameCache]⟩ hops).2.2
  intro ops2
  induction ops2 with
  | nil => exact fun c hc _ => hc
  | cons op rest ih =>
    intro c hc hops2
    exact ih (applyCacheOp c op)
      (applyCacheOp_inv maxEntries hmax c op hc (hops2 op (List.mem_cons_self _ _)))
      (fun o ho => hops2 o (List.mem_cons_of_mem _ ho))

/-- Counterexample to C9 as stated: with capacity 1, a `set` under the
empty file path followed by a `set` under path "a" leaves 2 stored entries
— `evictOldest` fails to evict the empty-string key because of the JS
truthiness test `if (oldestKey)` — so the entry count exceeds
`maxEntries`. -/
theorem c9_counterexample :
    (applyCacheOps (emptyBlameCache 1)
      [CacheOp.set [] (String.toList "h") emptyParseResult 0,
       CacheOp.set (String.toList "a") (String.toList "h") emptyParseResult 1]).cache.length
      = 2 ∧
    ¬ ((applyCacheOps (emptyBlameCache 1)
      [CacheOp.set [] (String.toList "h") emptyParseResult 0,
       CacheOp.set (String.toList "a") (String.toList "h") emptyParseResult 1]).cache.length
      ≤ (emptyBlameCache 1).maxEntries) := by
  constructor
  · decide
  · decide

/-- Witness for C9 at a concrete operation sequence: a get, two sets of
distinct non-empty paths, a delete, an invalidation and a clear against a
capacity-1 cache. -/
theorem c9_witness :
    (applyCacheOps (emptyBlameCache 1)
      [CacheOp.get (String.toList "a") (String.toList "h"),
       CacheOp.set (String.toList "a") (String.toList "h") emptyParseResult 0,
       CacheOp.set (String.toList "b") (String.toList "h") emptyParseResult 1,
       CacheOp.delete (String.toList "b"),
       CacheOp.invalidateForHeadChange (String.toList "h2"),
       CacheOp.clear]).cache.length ≤ 1 :=
  c9_capacity_invariant 1
    [CacheOp.get (String.toList "a") (String.toList "h"),
     CacheOp.set (String.toList "a") (String.toList "h") emptyParseResult 0,
     CacheOp.set (String.toList "b") (String.toList "h") emptyParseResult 1,
     CacheOp.delete (String.toList "b"),
     CacheOp.invalidateForHeadChange (String.toList "h2"),
     CacheOp.clear]
    (by omega)
    (by
      intro op hop
      simp only [List.mem_cons, List.not_mem_nil, or_false] at hop
      rcases hop with rfl | rfl | rfl | rfl | rfl | rfl
      · exact trivial
      · exact (by decide : String.toList "a" ≠ [])
      · exact (by decide : String.toList "b" ≠ [])
      · exact trivial
      · exact trivial
      · exact trivial)
